import Mathlib

/-!
# Orion build pipeline (`build/build.js`)

A shallow embedding of the build script: the configuration lookup, the bundle list,
the command templates, the promise-sequenced phases and the HTML rewrite, followed by
the properties established about them.

Conventions of the embedding.
* A JavaScript string is the list of its characters (`Str`).
* The `path` module, the XML parser and the file system / process runner are outside the
  script; they appear as parameters (`PathModule`, `Env.parseFromString`, `World`).
  `posixPath` is the POSIX flavour of Node's `path` module, used where a concrete path
  computation is evaluated.
* The promise library (`promised-io`) is outside the script as well. Its promises are
  taken by their contract: `then` with a success callback only passes a rejection on,
  `seq` runs its actions in order and rejects with the first rejection, `all` resolves
  once all its members have. The methods `resolve` and `reject` of a `Deferred` settle
  that deferred and return no promise (`resolve` returns nothing, `reject` its `handled`
  flag), so a callback that returns `new Deferred().resolve()` or
  `new Deferred().reject()` returns a plain value and the promise chained on it resolves.
* Running the script yields the trace of its observable actions (`Event`) together with
  how the promise chain settled. Console output is part of the trace.
-/

namespace Orion

/-! ## Strings -/

/-- A JavaScript string value. -/
abbrev Str := List Char

/-- The first occurrence of `pat` in a string: the text before it and the text after it
(`String.prototype.indexOf` together with the two slices around the match). -/
def splitFirst (pat : Str) : Str → Option (Str × Str)
  | [] => if pat.isPrefixOf [] then some ([], []) else none
  | c :: t =>
    if pat.isPrefixOf (c :: t) then some ([], (c :: t).drop pat.length)
    else (splitFirst pat t).map fun r => (c :: r.1, r.2)

/-- Expansion of the replacement text of `String.prototype.replace` for a string pattern
(ECMAScript `GetSubstitution` with no captures): `$$` gives `$`, `$&` the matched text,
`$` followed by a backtick the text before the match, `$` followed by an apostrophe the
text after it; every other character stands for itself. -/
def getSubstitution (matched pre post : Str) : Str → Str
  | [] => []
  | [c] => [c]
  | c :: d :: rest =>
    if c = '$' then
      if d = '$' then '$' :: getSubstitution matched pre post rest
      else if d = '&' then matched ++ getSubstitution matched pre post rest
      else if d = Char.ofNat 96 then pre ++ getSubstitution matched pre post rest
      else if d = Char.ofNat 39 then post ++ getSubstitution matched pre post rest
      else c :: getSubstitution matched pre post (d :: rest)
    else c :: getSubstitution matched pre post (d :: rest)

/-- A character that `getSubstitution` copies wherever it stands: it is not `$` and does
not complete a `$` pattern. -/
def Plain (x : Char) : Prop :=
  x ≠ '$' ∧ x ≠ '&' ∧ x ≠ Char.ofNat 96 ∧ x ≠ Char.ofNat 39

/-- The call `s.replace(pat, repl)` with a string pattern: only the first occurrence of
`pat` is replaced, by the expansion of `repl`. -/
def replace (s pat repl : Str) : Str :=
  match splitFirst pat s with
  | none => s
  | some (pre, post) => pre ++ getSubstitution pat pre post repl ++ post

/-- Property lookup `args[param]` on the argument object of `format`; a missing property
prints as `undefined`. -/
def lookupArg (args : List (Str × Str)) (param : Str) : Str :=
  match args.find? (fun kv => kv.1 == param) with
  | some kv => kv.2
  | none => "undefined".toList

/-- The scan of `str.replace(/\$\{([^}]+)\}/g, ...)` in `format`. The first argument is
`none` outside a placeholder and `some buf` after `$\x7b` followed by the characters
`buf`, none of which is a closing brace. -/
def formatGo (args : List (Str × Str)) : Option Str → Str → Str
  | none, [] => []
  | none, [c] => [c]
  | none, c :: d :: rest =>
    if c = '$' ∧ d = '{' then formatGo args (some []) rest
    else c :: formatGo args none (d :: rest)
  | some buf, [] => '$' :: '{' :: buf
  | some buf, c :: rest =>
    if c = '}' then
      if buf = [] then '$' :: '{' :: '}' :: formatGo args none rest
      else lookupArg args buf ++ formatGo args none rest
    else formatGo args (some (buf ++ [c])) rest

/-- The helper `format(str, args)` with named parameters. -/
def format (str : Str) (args : List (Str × Str)) : Str :=
  formatGo args none str

/-- The helper `format(str, a0, a1)` with numbered parameters. -/
def formatNumbered (str : Str) (a0 a1 : Str) : Str :=
  format str [("0".toList, a0), ("1".toList, a1)]

/-! ## The configuration document -/

/-- An element of the parsed configuration document (text nodes carry nothing the
script reads and are left out). -/
inductive Element where
  | mk (tagName : Str) (attributes : List (Str × Str)) (childNodes : List Element)

namespace Element

/-- Tag name of an element. -/
def tagName : Element → Str
  | mk t _ _ => t

/-- Attribute list of an element. -/
def attributes : Element → List (Str × Str)
  | mk _ a _ => a

/-- Method `getAttribute(name)`: the value of the attribute, the empty string when the
element has no such attribute. -/
def getAttribute (e : Element) (name : Str) : Str :=
  match e.attributes.find? (fun kv => kv.1 == name) with
  | some kv => kv.2
  | none => []

mutual
/-- All descendants of an element, in document order. -/
def descendants : Element → List Element
  | mk _ _ cs => descendantsOfList cs
/-- The elements of a forest with all their descendants, in document order. -/
def descendantsOfList : List Element → List Element
  | [] => []
  | e :: es => e :: (descendants e ++ descendantsOfList es)
end

/-- Method `getElementsByTagName(name)` on an element. -/
def getElementsByTagName (e : Element) (name : Str) : List Element :=
  e.descendants.filter fun d => d.tagName == name

end Element

/-- The parsed configuration document: its top-level elements. -/
structure Document where
  childNodes : List Element

/-- Method `getElementsByTagName(name)` on the document. -/
def Document.getElementsByTagName (d : Document) (name : Str) : List Element :=
  (Element.descendantsOfList d.childNodes).filter fun e => e.tagName == name

/-! ## The `path` module -/

/-- The three functions of the platform `path` module that the script calls. -/
structure PathModule where
  join : List Str → Str
  resolve : List Str → Str
  dirname : Str → Str

/-- The pieces of a string between its slashes (`s.split('/')`). -/
def splitSlash : Str → List Str
  | [] => [[]]
  | c :: t =>
    if c = '/' then [] :: splitSlash t
    else
      match splitSlash t with
      | [] => [[c]]
      | h :: r => (c :: h) :: r

/-- The pieces joined by slashes (`parts.join('/')`). -/
def joinSlash : List Str → Str
  | [] => []
  | [p] => p
  | p :: q :: r => p ++ '/' :: joinSlash (q :: r)

/-- The backward loop of `normalizeArray`: the segments kept and the number of pending
`..` segments (`up`). -/
def normalizeArrayLoop : List Str → List Str × Nat
  | [] => ([], 0)
  | last :: rest =>
    let r := normalizeArrayLoop rest
    if last = ['.'] then r
    else if last = ['.', '.'] then (r.1, r.2 + 1)
    else if r.2 ≠ 0 then (r.1, r.2 - 1)
    else (last :: r.1, r.2)

/-- Node's `normalizeArray(parts, allowAboveRoot)`. -/
def normalizeArray (parts : List Str) (allowAboveRoot : Bool) : List Str :=
  let r := normalizeArrayLoop parts
  if allowAboveRoot then List.replicate r.2 ['.', '.'] ++ r.1 else r.1

/-- The non-empty segments of a path, normalised. -/
def normalizeSegments (p : Str) (allowAboveRoot : Bool) : Str :=
  joinSlash (normalizeArray ((splitSlash p).filter fun x => x ≠ []) allowAboveRoot)

/-- POSIX `path.normalize`. -/
def posixNormalize (p : Str) : Str :=
  let isAbsolute := p.head? = some '/'
  let trailingSlash := p.getLast? = some '/'
  let q := normalizeSegments p (!decide isAbsolute)
  let q := if q = [] ∧ ¬ isAbsolute then ['.'] else q
  let q := if q ≠ [] ∧ trailingSlash then q ++ ['/'] else q
  (if isAbsolute then ['/'] else []) ++ q

/-- POSIX `path.join`: the non-empty arguments joined by slashes, normalised. -/
def posixJoin (args : List Str) : Str :=
  posixNormalize (joinSlash (args.filter fun p => p ≠ []))

/-- The loop of POSIX `path.resolve` over the arguments from the last to the first and
then the working directory, stopping at the first absolute one. -/
def posixResolveLoop : List Str → Str → Str × Bool
  | [], acc => (acc, false)
  | p :: ps, acc =>
    if p = [] then posixResolveLoop ps acc
    else if p.head? = some '/' then (p ++ '/' :: acc, true)
    else posixResolveLoop ps (p ++ '/' :: acc)

/-- POSIX `path.resolve` in a process whose working directory is `cwd`. -/
def posixResolve (cwd : Str) (args : List Str) : Str :=
  let r := posixResolveLoop (args.reverse ++ [cwd]) []
  let q := (if r.2 then ['/'] else []) ++ normalizeSegments r.1 (!r.2)
  if q = [] then ['.'] else q

/-- The directory group of Node's `splitPathRe` on the text after the root: the longest
prefix that ends in a slash, has a character before that slash and some text after it,
else a single leading slash. -/
def posixDirPart (rest : Str) : Str :=
  match ((List.range rest.length).filter fun i =>
      1 ≤ i ∧ i + 1 < rest.length ∧ rest.get? i = some '/').getLast? with
  | some i => rest.take (i + 1)
  | none => if rest.head? = some '/' then ['/'] else []

/-- POSIX `path.dirname`. -/
def posixDirname (p : Str) : Str :=
  let root : Str := if p.head? = some '/' then ['/'] else []
  let dir := posixDirPart (p.drop root.length)
  if root = [] ∧ dir = [] then ['.'] else root ++ dir.dropLast

/-- The POSIX flavour of the `path` module in a process started in `cwd`. -/
def posixPath (cwd : Str) : PathModule :=
  { join := posixJoin, resolve := posixResolve cwd, dirname := posixDirname }

/-! ## Script globals -/

/-- What the script takes from its surroundings: the `path` module, the directory of the
script (`__dirname`), the optional command-line argument `process.argv[2]`,
the platform test and the XML parser. -/
structure Env where
  path : PathModule
  __dirname : Str
  argv2 : Option Str
  IS_WINDOWS : Bool
  parseFromString : Str → Document

/-- Constant `BUNDLE_WEB_FOLDER`. -/
def BUNDLE_WEB_FOLDER : Str := "./web/".toList

/-- Global `pathToRjs`. -/
def pathToRjs (env : Env) : Str :=
  env.path.resolve [env.__dirname, "r.js".toList]

/-- The value of `process.argv[2] || './orion.build.js'`. -/
def buildFileArg (env : Env) : Str :=
  match env.argv2 with
  | some a => if a = [] then "./orion.build.js".toList else a
  | none => "./orion.build.js".toList

/-- Global `pathToBuildFile`. -/
def pathToBuildFile (env : Env) : Str :=
  env.path.resolve [env.__dirname, buildFileArg env]

/-- Global `pathToBundlesFolder`. -/
def pathToBundlesFolder (env : Env) : Str :=
  env.path.resolve [env.path.dirname (pathToBuildFile env), "../bundles/".toList]

/-- Global `pathToTempDir`. -/
def pathToTempDir (env : Env) : Str :=
  env.path.resolve [env.__dirname, ".temp/".toList]

/-! ## Target descriptors and the bundle list -/

/-- One entry of `optimizes`: the object built for an `optimize` element. -/
structure Optimize where
  pageDir : Str
  name : Str
  bundle : Str
  pageDirPath : Str
  minifiedFilePath : Str
  htmlFilePath : Str

/-- The callback of `toArray(...).map` that turns an `optimize` element into its
descriptor. -/
def toOptimize (env : Env) (optimize : Element) : Optimize :=
  let pageDir := optimize.getAttribute "pageDir".toList
  let name := optimize.getAttribute "name".toList
  { pageDir := pageDir
    name := name
    bundle := optimize.getAttribute "bundle".toList
    pageDirPath := env.path.join [pathToTempDir env, pageDir]
    minifiedFilePath :=
      env.path.join [pathToTempDir env, pageDir, "built-".toList ++ name] ++ ".js".toList
    htmlFilePath := env.path.join [pathToTempDir env, pageDir, name ++ ".html".toList] }

/-- The search `targets.some(...)`: the first `target` element of the document whose
`name` attribute is `requirejs`. -/
def findRequirejsTarget (document : Document) : Option Element :=
  (document.getElementsByTagName "target".toList).find? fun t =>
    t.getAttribute "name".toList == "requirejs".toList

/-- The array `optimizes` of a target group. -/
def optimizesOf (env : Env) (requirejsTarget : Element) : List Optimize :=
  (requirejsTarget.getElementsByTagName "optimize".toList).map (toOptimize env)

/-- The callback given to `array.every` inside the filter: at position `j` holding
`bundle2`, for the candidate `bundle` at position `i`. -/
def everyCallback (bundle : Str) (i : Nat) (bundle2 : Str) (j : Nat) : Bool :=
  if bundle = bundle2 then decide (i ≥ j) else true

/-- The callback given to `filter`: `array.every(...)` for the entry `bundle` at
position `i`. -/
def filterCallback (bundle : Str) (i : Nat) (array : List Str) : Bool :=
  array.enum.all fun jb => everyCallback bundle i jb.2 jb.1

/-- The filter applied to the bundle attributes. -/
def filterBundles (array : List Str) : List Str :=
  (array.enum.filter fun ib => filterCallback ib.2 ib.1 array).map Prod.snd

/-- The array `bundles` computed by `processFile`. -/
def bundlesOf (optimizes : List Optimize) : List Str :=
  filterBundles (optimizes.map fun op => op.bundle)

/-- The names of a list with every name kept at its last occurrence only, in the order
of the list. -/
def lastOccurrences : List Str → List Str
  | [] => []
  | x :: xs => if x ∈ xs then lastOccurrences xs else x :: lastOccurrences xs

/-- The names of a list with every name kept at its first occurrence only, in the order
of the list. -/
def firstOccurrences : List Str → List Str
  | [] => []
  | x :: xs => x :: (firstOccurrences xs).filter fun y => y ≠ x

/-- An `optimize` element with the three attributes the script reads. -/
def optimizeElement (pageDir name bundle : Str) : Element :=
  Element.mk "optimize".toList
    [("name".toList, name), ("bundle".toList, bundle), ("pageDir".toList, pageDir)] []

/-- A configuration document whose `requirejs` target holds the given entries. -/
def requirejsDocument (entries : List Element) : Document :=
  { childNodes := [Element.mk "project".toList []
      [Element.mk "target".toList [("name".toList, "requirejs".toList)] entries]] }

/-! ## The HTML rewrite -/

/-- The single-quoted bootstrap call for a target name. -/
def singleQuotedCall (name : Str) : Str :=
  "require(['".toList ++ name ++ ".js']);".toList

/-- The double-quoted bootstrap call for a target name. -/
def doubleQuotedCall (name : Str) : Str :=
  "require([\"".toList ++ name ++ ".js\"]);".toList

/-- The string `builtResult`. -/
def builtResult (name : Str) : Str :=
  "require([\"built-".toList ++ name ++ ".js\"]);".toList

/-- The loader path looked for by the third replacement. -/
def loaderPath : Str := "requirejs/require.js".toList

/-- The loader path written by the third replacement. -/
def minLoaderPath : Str := "requirejs/require.min.js".toList

/-- The three `replace` calls of the updateHTML step, in order: the text written back
for the text read. -/
def updateHTML (name htmlFile : Str) : Str :=
  let htmlFile := replace htmlFile (singleQuotedCall name) (builtResult name)
  let htmlFile := replace htmlFile (doubleQuotedCall name) (builtResult name)
  replace htmlFile loaderPath minLoaderPath

/-! ## The outside world and the trace of a run -/

/-- An error value handed to a callback: its `code` and the text that
`console.log(error.stack || error)` prints. -/
structure JsError where
  code : Str
  stack : Str
  deriving DecidableEq

/-- What `child_process.exec` hands to its callback. -/
structure ExecResult where
  error : Option JsError
  stdout : Str
  deriving DecidableEq

/-- The observable actions of a run, in the order in which they are issued. -/
inductive Event where
  | log (line : Str)
  | mkdir (path : Str)
  | exec (cmd : Str) (cwd : Str)
  | readFile (path : Str)
  | writeFile (path : Str) (data : Str)
  | exit (code : Nat)
  deriving DecidableEq

/-- The outcomes chosen by the file system and the child processes: `none` or `ok` for
success, an error otherwise. Each outcome may depend on everything the run has done up
to and including the request itself. -/
structure World where
  mkdir : List Event → Str → Option JsError
  exec : List Event → Str → Str → ExecResult
  readFile : List Event → Str → Except JsError Str
  writeFile : List Event → Str → Str → Option JsError

/-- How a promise of the script has settled, or that the process has exited meanwhile. -/
inductive Settled where
  | resolved
  | rejected (error : Option JsError)
  | exited (code : Nat)
  deriving DecidableEq

/-- An asynchronous action: it extends the trace and settles. -/
abbrev Task := List Event → List Event × Settled

/-- Chaining `p.then(f)` with a success callback only: `f` runs when `p` has resolved;
a rejection passes through. -/
def andThen (p : List Event × Settled) (f : Task) : List Event × Settled :=
  match p.2 with
  | Settled.resolved => f p.1
  | _ => p

/-- The call `PromisedIO.seq(actions)`: the actions run one after the other, each once
the one before it has resolved; the first rejection rejects the sequence. -/
def seq : List Task → Task
  | [], tr => (tr, Settled.resolved)
  | a :: rest, tr => andThen (a tr) (seq rest)

/-- The working directory `options.cwd || pathToTempDir` of `execCommand`. -/
def cwdOf (env : Env) (cwd : Option Str) : Str :=
  match cwd with
  | some c => if c = [] then pathToTempDir env else c
  | none => pathToTempDir env

/-- The synchronous part of `execCommand`: the command is logged and started. -/
def execIssue (env : Env) (tr : List Event) (cmd : Str) (cwd : Option Str) : List Event :=
  tr ++ [Event.log cmd, Event.exec cmd (cwdOf env cwd)]

/-- The callback of `execCommand`: the error and the output are logged; the promise
resolves whatever the outcome. -/
def execCallback (r : ExecResult) (tr : List Event) : List Event :=
  let tr :=
    match r.error with
    | some e => tr ++ [Event.log e.stack]
    | none => tr
  if r.stdout = [] then tr else tr ++ [Event.log r.stdout]

/-- The function `execCommand(cmd, options)` followed to its resolution. -/
def execCommand (env : Env) (w : World) (cmd : Str) (cwd : Option Str) : Task := fun tr =>
  let tr := execIssue env tr cmd cwd
  (execCallback (w.exec tr cmd (cwdOf env cwd)) tr, Settled.resolved)

/-! ## Build steps -/

/-- The copy command for one bundle. -/
def copyCommand (env : Env) (bundle : Str) : Str :=
  let bundleWebFolder := env.path.resolve [pathToBundlesFolder env, bundle, BUNDLE_WEB_FOLDER]
  if env.IS_WINDOWS then
    formatNumbered "xcopy /e /h /q /y \"${0}\" \"${1}\" ".toList bundleWebFolder (pathToTempDir env)
  else
    formatNumbered "cp -R ${0}/* ${1}".toList bundleWebFolder (pathToTempDir env)

/-- The object of named parameters given to `format` in the optimize step. -/
def optimizeArgs (env : Env) (op : Optimize) : List (Str × Str) :=
  [ ("pathToRjs".toList, pathToRjs env),
    ("pathToBuildFile".toList, pathToBuildFile env),
    ("name".toList, op.pageDir ++ "/".toList ++ op.name),
    ("out".toList, "./.temp/".toList ++ op.pageDir ++ "/built-".toList ++ op.name ++ ".js".toList),
    ("baseUrl".toList, "./.temp/".toList) ]

/-- The optimizer command for one target. -/
def optimizeCommand (env : Env) (op : Optimize) : Str :=
  format "node ${pathToRjs} -o ${pathToBuildFile} name=${name} out=${out} baseUrl=${baseUrl}".toList
    (optimizeArgs env op)

/-- The working directory of the optimizer: `path.dirname(pathToBuildFile)`. -/
def optimizerCwd (env : Env) : Str :=
  cwdOf env (some (env.path.dirname (pathToBuildFile env)))

/-- The object `args` of the publish step. -/
def publishArgs (env : Env) (op : Optimize) : List (Str × Str) :=
  [ ("builtJsFile".toList, op.minifiedFilePath),
    ("htmlFile".toList, op.htmlFilePath),
    ("originalFolder".toList,
      env.path.join [pathToBundlesFolder env, op.bundle, BUNDLE_WEB_FOLDER, op.pageDir]) ]

/-- The copy commands of the publish step for one target, in the order in which they
are started. -/
def publishCommands (env : Env) (op : Optimize) : List Str :=
  if env.IS_WINDOWS then
    [ format "xcopy /q /y ${builtJsFile} ${originalFolder}".toList (publishArgs env op),
      format "xcopy /q /y ${htmlFile} ${originalFolder}".toList (publishArgs env op) ]
  else
    [ format "cp ${builtJsFile} ${htmlFile} ${originalFolder}".toList (publishArgs env op) ]

/-- One action of the copy phase. -/
def copyStep (env : Env) (w : World) (bundle : Str) : Task :=
  execCommand env w (copyCommand env bundle) none

/-- One action of the optimize phase. -/
def optimizeStep (env : Env) (w : World) (op : Optimize) : Task :=
  execCommand env w (optimizeCommand env op) (some (env.path.dirname (pathToBuildFile env)))

/-- One action of the updateHTML phase: the file is read; when the read succeeds the
rewritten text is written back and the action settles as the write does; when it fails
the error is logged and the action resolves. -/
def updateStep (w : World) (op : Optimize) : Task := fun tr =>
  let tr := tr ++ [Event.log ("updateHTML ".toList ++ op.htmlFilePath), Event.readFile op.htmlFilePath]
  match w.readFile tr op.htmlFilePath with
  | Except.ok htmlFile =>
    let htmlFile := updateHTML op.name htmlFile
    let tr := tr ++ [Event.writeFile op.htmlFilePath htmlFile]
    match w.writeFile tr op.htmlFilePath htmlFile with
    | none => (tr, Settled.resolved)
    | some e => (tr, Settled.rejected (some e))
  | Except.error error => (tr ++ [Event.log error.stack, Event.log []], Settled.resolved)

/-- The call `PromisedIO.all` over commands started together: all are issued, then their
callbacks run (here in the order of issue). -/
def execAll (env : Env) (w : World) (cmds : List Str) : Task := fun tr =>
  let issued := cmds.foldl (fun acc cmd =>
    let tr := execIssue env acc.1 cmd none
    (tr, acc.2 ++ [w.exec tr cmd (cwdOf env none)])) (tr, [])
  (issued.2.foldl (fun tr r => execCallback r tr) issued.1, Settled.resolved)

/-- One action of the publish phase. -/
def publishStep (env : Env) (w : World) (op : Optimize) : Task :=
  if env.IS_WINDOWS then execAll env w (publishCommands env op)
  else execCommand env w (format "cp ${builtJsFile} ${htmlFile} ${originalFolder}".toList
    (publishArgs env op)) none

/-- The banner line of a phase. -/
def banner (text : Str) : Event :=
  Event.log ("-------------------------------------------------------\n".toList ++ text)

/-- The creation of the staging directory and its two callbacks: every outcome resolves;
an error other than `EEXIST` is logged. -/
def mkdirTemp (env : Env) (w : World) : Task := fun tr =>
  let tr := tr ++ [Event.mkdir (pathToTempDir env)]
  match w.mkdir tr (pathToTempDir env) with
  | none => (tr, Settled.resolved)
  | some err =>
    if err.code ≠ "EEXIST".toList then (tr ++ [Event.log err.stack], Settled.resolved)
    else (tr, Settled.resolved)

/-- The copy phase. -/
def copyPhase (env : Env) (w : World) (bundles : List Str) : Task := fun tr =>
  seq (bundles.map (copyStep env w))
    (tr ++ [banner ("Copying bundle web content to ".toList ++ pathToTempDir env ++ "...\n".toList)])

/-- The optimize phase. -/
def optimizePhase (env : Env) (w : World) (optimizes : List Optimize) : Task := fun tr =>
  seq (optimizes.map (optimizeStep env w)) (tr ++ [banner "Running optimize...\n".toList])

/-- The updateHTML phase. -/
def updatePhase (w : World) (optimizes : List Optimize) : Task := fun tr =>
  seq (optimizes.map (updateStep w)) (tr ++ [banner "Running updateHTML...\n".toList])

/-- The publish phase. -/
def publishPhase (env : Env) (w : World) (optimizes : List Optimize) : Task := fun tr =>
  seq (optimizes.map (publishStep env w))
    (tr ++ [banner ("Copy built files to ".toList ++ pathToBundlesFolder env ++ "...\n".toList)])

/-- The last callback of the chain: `Done.` is logged and the process exits with 0. -/
def done : Task := fun tr =>
  (tr ++ [Event.log "Done.".toList, Event.exit 0], Settled.exited 0)

/-- The build steps of `processFile` for a target group that was found. -/
def buildSteps (env : Env) (w : World) (optimizes : List Optimize) : Task := fun tr =>
  andThen (andThen (andThen (andThen (andThen (mkdirTemp env w tr)
    (copyPhase env w (bundlesOf optimizes)))
    (optimizePhase env w optimizes))
    (updatePhase w optimizes))
    (publishPhase env w optimizes))
    done

/-- The function `processFile`, from the parsed document on, with the settlement of the
promise that the top-level `then` callback calling it yields. Without a `requirejs`
target the message is logged and the value of `new Deferred().reject()` is returned;
that value is not a promise, so the callback returns a plain value and its promise
resolves (the fresh deferred that was rejected has no listener, and the process has
exited before its delayed error could be thrown). -/
def processFile (env : Env) (w : World) (document : Document) : Task := fun tr =>
  match findRequirejsTarget document with
  | none =>
    (tr ++ [Event.log
      "Whoa! Couldn't find a <target name=\"requirejs\"> element in customTargets.xml".toList],
      Settled.resolved)
  | some requirejsTarget => buildSteps env w (optimizesOf env requirejsTarget) tr

/-- The function `exitFail`. -/
def exitFail (error : Option JsError) (tr : List Event) : List Event :=
  match error with
  | some e => tr ++ [Event.log e.stack, Event.exit 1]
  | none => tr ++ [Event.exit 1]

/-- The function `exitSuccess`. -/
def exitSuccess (tr : List Event) : List Event :=
  tr ++ [Event.exit 0]

/-- The end of the top-level chain `.then(exitSuccess, exitFail)` for a settled
`processFile`. -/
def finish (p : List Event × Settled) : List Event :=
  match p.2 with
  | Settled.exited _ => p.1
  | Settled.rejected error => exitFail error p.1
  | Settled.resolved => exitSuccess p.1

/-- The whole script from the parsed configuration document on. -/
def runDocument (env : Env) (w : World) (document : Document) (tr : List Event) : List Event :=
  finish (processFile env w document tr)

/-- The whole script: `customTargets.xml` is read, parsed and processed. -/
def main (env : Env) (w : World) : List Event :=
  let file := env.path.join [env.__dirname, "customTargets.xml".toList]
  let tr := [Event.readFile file]
  match w.readFile tr file with
  | Except.ok xml => runDocument env w (env.parseFromString xml) tr
  | Except.error error => exitFail (some error) tr

/-! ## Reading a trace -/

/-- The external commands of a trace with their working directories, in order. -/
def commandsOf (tr : List Event) : List (Str × Str) :=
  tr.filterMap fun e =>
    match e with
    | Event.exec cmd cwd => some (cmd, cwd)
    | _ => none

/-- The files a trace reads, in order. -/
def readsOf (tr : List Event) : List Str :=
  tr.filterMap fun e =>
    match e with
    | Event.readFile path => some path
    | _ => none

/-- The exit codes a trace ends the process with. -/
def exitCodesOf (tr : List Event) : List Nat :=
  tr.filterMap fun e =>
    match e with
    | Event.exit code => some code
    | _ => none


/-- The commands of the copy phase with their working directory: one per entry of the
bundle list. -/
def stagingCommands (env : Env) (optimizes : List Optimize) : List (Str × Str) :=
  (bundlesOf optimizes).map fun bundle => (copyCommand env bundle, pathToTempDir env)

/-- The commands of the optimize phase with their working directory: one per target. -/
def optimizerCommands (env : Env) (optimizes : List Optimize) : List (Str × Str) :=
  optimizes.map fun op =>
    (optimizeCommand env op, cwdOf env (some (env.path.dirname (pathToBuildFile env))))

/-- The commands of the publish phase with their working directory, target by target. -/
def publishPhaseCommands (env : Env) (optimizes : List Optimize) : List (Str × Str) :=
  optimizes.flatMap fun op => (publishCommands env op).map fun cmd => (cmd, pathToTempDir env)

/-! ## Example runs -/

/-- A POSIX host with the script in `/orion/build` and no command-line argument. -/
def exampleEnv : Env :=
  { path := posixPath "/".toList
    __dirname := "/orion/build".toList
    argv2 := none
    IS_WINDOWS := false
    parseFromString := fun _ => requirejsDocument [] }

/-- A configuration with two targets in the bundle `core` and one in the bundle `extra`. -/
def exampleDocument : Document :=
  requirejsDocument
    [ optimizeElement "edit".toList "edit".toList "core".toList,
      optimizeElement "settings".toList "settings".toList "core".toList,
      optimizeElement "git".toList "git-status".toList "extra".toList ]

/-- The same host started with the build file `conf/orion.build.js`. -/
def relocatedEnv : Env :=
  { exampleEnv with argv2 := some "conf/orion.build.js".toList }

/-- The descriptor of the target `edit` in the page directory `edit` of the bundle
`core`. -/
def editTarget (env : Env) : Optimize :=
  toOptimize env (optimizeElement "edit".toList "edit".toList "core".toList)

/-- A configuration whose only `target` element is named `build`. -/
def noTargetDocument : Document :=
  { childNodes := [Element.mk "project".toList []
      [Element.mk "target".toList [("name".toList, "build".toList)]
        [optimizeElement "edit".toList "edit".toList "core".toList]]] }

/-- A configuration with a single target. -/
def oneTargetDocument : Document :=
  requirejsDocument [optimizeElement "edit".toList "edit".toList "core".toList]

/-- A world in which everything succeeds; every file read is empty. -/
def quietWorld : World :=
  { mkdir := fun _ _ => none
    exec := fun _ _ _ => { error := none, stdout := [] }
    readFile := fun _ _ => Except.ok []
    writeFile := fun _ _ _ => none }

/-- A world in which the directory creation, every command and every read fail. -/
def failingWorld : World :=
  { mkdir := fun _ _ => some { code := "EACCES".toList, stack := "Error: EACCES".toList }
    exec := fun _ _ _ =>
      { error := some { code := "1".toList, stack := "Error: Command failed".toList },
        stdout := [] }
    readFile := fun _ _ => Except.error { code := "ENOENT".toList, stack := "Error: ENOENT".toList }
    writeFile := fun _ _ _ => none }

/-- A world in which everything succeeds except the writes. -/
def readOnlyWorld : World :=
  { mkdir := fun _ _ => none
    exec := fun _ _ _ => { error := none, stdout := [] }
    readFile := fun _ _ => Except.ok []
    writeFile := fun _ _ _ => some { code := "EACCES".toList, stack := "Error: EACCES".toList } }

/-- The error `e` is the outcome of some write in the world `w`. -/
def WriteFails (w : World) (e : JsError) : Prop :=
  ∃ tr path data, w.writeFile tr path data = some e

/-- Every write of the world succeeds. -/
def WritesSucceed (w : World) : Prop :=
  ∀ tr path data, w.writeFile tr path data = none

/-- The behaviour of an action of the build: it never exits the process, and either it
resolves after issuing exactly the commands `cmds` and reading exactly the files
`reads`, or it rejects with the error of a failed write. -/
def Behaves (w : World) (a : Task) (cmds : List (Str × Str)) (reads : List Str) : Prop :=
  ∀ tr, exitCodesOf (a tr).1 = exitCodesOf tr ∧
    (((a tr).2 = Settled.resolved ∧ commandsOf (a tr).1 = commandsOf tr ++ cmds ∧
        readsOf (a tr).1 = readsOf tr ++ reads) ∨
      ∃ e, WriteFails w e ∧ (a tr).2 = Settled.rejected (some e))

/-! ## Facts about `replace` -/

theorem splitFirst_eq_some {pat : Str} : ∀ {s a b : Str},
    splitFirst pat s = some (a, b) → s = a ++ pat ++ b := by
  intro s
  induction s with
  | nil =>
    intro a b h
    simp only [splitFirst] at h
    split at h
    · rename_i hp
      simp at h
      obtain ⟨rfl, rfl⟩ := h
      have : pat = [] := by simpa using hp
      simp [this]
    · simp at h
  | cons c t ih =>
    intro a b h
    simp only [splitFirst] at h
    split at h
    · rename_i hp
      simp only [Option.some.injEq, Prod.mk.injEq] at h
      obtain ⟨rfl, rfl⟩ := h
      have hp' : pat <+: c :: t := List.isPrefixOf_iff_prefix.mp hp
      obtain ⟨r, hr⟩ := hp'
      rw [← hr]
      simp
    · cases hs : splitFirst pat t with
      | none => simp [hs] at h
      | some r =>
        obtain ⟨a0, b0⟩ := r
        simp only [hs, Option.map_some', Option.some.injEq, Prod.mk.injEq] at h
        obtain ⟨rfl, rfl⟩ := h
        have := ih hs
        simp [this]

theorem splitFirst_eq_none {pat : Str} : ∀ {s : Str},
    splitFirst pat s = none → ¬ pat <:+: s := by
  intro s
  induction s with
  | nil =>
    intro h hin
    simp only [splitFirst] at h
    split at h
    · simp at h
    · rename_i hp
      have : pat = [] := by simpa using hin
      simp [this] at hp
  | cons c t ih =>
    intro h hin
    simp only [splitFirst] at h
    split at h
    · simp at h
    · rename_i hp
      have hn : splitFirst pat t = none := by simpa using h
      rcases List.infix_cons_iff.mp hin with hpre | hinf
      · exact hp (List.isPrefixOf_iff_prefix.mpr hpre)
      · exact ih hn hinf

theorem splitFirst_least {pat : Str} : ∀ {s a b : Str},
    splitFirst pat s = some (a, b) →
    ∀ a' b', s = a' ++ pat ++ b' → a.length ≤ a'.length := by
  intro s
  induction s with
  | nil =>
    intro a b h a' b' _
    simp only [splitFirst] at h
    split at h
    · simp at h
      obtain ⟨rfl, -⟩ := h
      simp
    · simp at h
  | cons c t ih =>
    intro a b h a' b' hs
    simp only [splitFirst] at h
    split at h
    · simp only [Option.some.injEq, Prod.mk.injEq] at h
      obtain ⟨rfl, -⟩ := h
      simp
    · rename_i hp
      cases hsp : splitFirst pat t with
      | none => simp [hsp] at h
      | some r =>
        obtain ⟨a0, b0⟩ := r
        simp only [hsp, Option.map_some', Option.some.injEq, Prod.mk.injEq] at h
        obtain ⟨rfl, rfl⟩ := h
        cases a' with
        | nil =>
          exfalso
          apply hp
          apply List.isPrefixOf_iff_prefix.mpr
          exact ⟨b', by simpa using hs.symm⟩
        | cons x a'' =>
          simp only [List.cons_append, List.cons.injEq] at hs
          have := ih hsp a'' b' (by simpa using hs.2)
          simpa using this

theorem splitFirst_of_occurs {pat s : Str} (h : pat <:+: s) :
    ∃ a b, splitFirst pat s = some (a, b) := by
  cases hs : splitFirst pat s with
  | none => exact absurd h (splitFirst_eq_none hs)
  | some r => exact ⟨r.1, r.2, rfl⟩

theorem splitFirst_unique {pat s a b : Str} (hs : s = a ++ pat ++ b)
    (hmin : ∀ a' b', s = a' ++ pat ++ b' → a.length ≤ a'.length) :
    splitFirst pat s = some (a, b) := by
  obtain ⟨a0, b0, h0⟩ := splitFirst_of_occurs (s := s) ⟨a, b, hs.symm⟩
  have e0 := splitFirst_eq_some h0
  have l1 := splitFirst_least h0 a b hs
  have l2 := hmin a0 b0 e0
  have hl : a0.length = a.length := le_antisymm l1 l2
  have he : a0 ++ (pat ++ b0) = a ++ (pat ++ b) := by
    rw [← List.append_assoc, ← List.append_assoc, ← e0, ← hs]
  have h1 := List.append_inj he hl
  have h2 : b0 = b := List.append_cancel_left h1.2
  rw [h0, h1.1, h2]

theorem replace_of_absent {s pat : Str} (repl : Str) (h : ¬ pat <:+: s) :
    replace s pat repl = s := by
  cases hs : splitFirst pat s with
  | none => simp [replace, hs]
  | some r =>
    obtain ⟨a, b⟩ := r
    exact absurd ⟨a, b, (splitFirst_eq_some hs).symm⟩ h

theorem replace_of_split {s pat a b : Str} (repl : Str) (h : splitFirst pat s = some (a, b)) :
    replace s pat repl = a ++ getSubstitution pat a b repl ++ b := by
  simp [replace, h]

theorem getSubstitution_of_no_dollar (m p q : Str) :
    ∀ r : Str, '$' ∉ r → getSubstitution m p q r = r
  | [], _ => rfl
  | [_], _ => rfl
  | c :: d :: rest, h => by
    have hc : c ≠ '$' := fun e => h (by simp [e])
    have ih := getSubstitution_of_no_dollar m p q (d :: rest)
      (fun hm => h (List.mem_cons_of_mem _ hm))
    simp [getSubstitution, hc, ih]

theorem count_getSubstitution_le (x : Char) (hx : x ≠ '$') (hx1 : x ≠ '&')
    (hx2 : x ≠ Char.ofNat 96) (hx3 : x ≠ Char.ofNat 39) (m p q : Str) :
    ∀ r : Str, r.count x ≤ (getSubstitution m p q r).count x
  | [] => le_refl _
  | [_] => le_refl _
  | c :: d :: rest => by
    have ih1 := count_getSubstitution_le x hx hx1 hx2 hx3 m p q rest
    have ih2 := count_getSubstitution_le x hx hx1 hx2 hx3 m p q (d :: rest)
    simp only [getSubstitution]
    split_ifs with h1 h2 h3 h4 h5
    · subst h1; subst h2
      simp only [List.count_cons, beq_iff_eq] at *
      simp [hx.symm] at *
      omega
    · subst h1; subst h3
      simp only [List.count_cons, List.count_append, beq_iff_eq] at *
      simp [hx.symm, hx1.symm] at *
      omega
    · subst h1; subst h4
      simp only [List.count_cons, List.count_append, beq_iff_eq] at *
      simp [hx.symm, hx2.symm] at *
      omega
    · subst h1; subst h5
      simp only [List.count_cons, List.count_append, beq_iff_eq] at *
      simp [hx.symm, hx3.symm] at *
      omega
    · simp only [List.count_cons] at *
      omega
    · simp only [List.count_cons] at *
      omega

theorem prefix_getSubstitution (m p q : Str) :
    ∀ (r s : Str), (∀ x ∈ s, x ≠ '$') → s <+: r → s <+: getSubstitution m p q r
  | [], s, _, h => by simpa [getSubstitution] using h
  | [c], s, _, h => by simpa [getSubstitution] using h
  | c :: d :: rest, s, hs, h => by
    cases s with
    | nil => exact List.nil_prefix
    | cons x s' =>
      obtain ⟨rfl, h'⟩ := List.cons_prefix_cons.mp h
      have hx : x ≠ '$' := hs x (by simp)
      have ih := prefix_getSubstitution m p q (d :: rest) s'
        (fun y hy => hs y (List.mem_cons_of_mem _ hy)) h'
      simp only [getSubstitution, hx, if_false]
      exact List.cons_prefix_cons.mpr ⟨rfl, ih⟩

theorem infix_getSubstitution (m p q : Str) :
    ∀ (r s : Str), (∀ x ∈ s, Plain x) → s <:+: r → s <:+: getSubstitution m p q r
  | [], s, _, h => by simpa [getSubstitution] using h
  | [c], s, _, h => by simpa [getSubstitution] using h
  | c :: d :: rest, s, hs, h => by
    have hd : ∀ x ∈ s, x ≠ '$' := fun x hx => (hs x hx).1
    rcases List.infix_cons_iff.mp h with hp | hi
    · exact (prefix_getSubstitution m p q _ s hd hp).isInfix
    · have ih2 := infix_getSubstitution m p q (d :: rest) s hs hi
      have hrest : (d = '$' ∨ d = '&' ∨ d = Char.ofNat 96 ∨ d = Char.ofNat 39) →
          s <:+: getSubstitution m p q rest := by
        intro hsp
        rcases List.infix_cons_iff.mp hi with hp | hi'
        · cases s with
          | nil => exact List.nil_infix
          | cons x s' =>
            obtain ⟨rfl, -⟩ := List.cons_prefix_cons.mp hp
            have := hs x (by simp)
            unfold Plain at this
            rcases hsp with e | e | e | e <;> simp [e] at this
        · exact infix_getSubstitution m p q rest s hs hi'
      simp only [getSubstitution]
      split_ifs with h1 h2 h3 h4 h5
      · exact List.infix_cons (hrest (Or.inl h2))
      · exact (hrest (Or.inr (Or.inl h3))).trans (List.suffix_append _ _).isInfix
      · exact (hrest (Or.inr (Or.inr (Or.inl h4)))).trans (List.suffix_append _ _).isInfix
      · exact (hrest (Or.inr (Or.inr (Or.inr h5)))).trans (List.suffix_append _ _).isInfix
      · exact List.infix_cons ih2
      · exact List.infix_cons ih2

theorem split_at_marker {u v pre s post : Str} {c : Char}
    (h : u ++ c :: v = pre ++ s ++ post) (hc : c ∉ s) :
    (∃ w, u = pre ++ s ++ w ∧ post = w ++ c :: v) ∨
    (∃ w, pre = u ++ c :: w ∧ v = w ++ s ++ post) := by
  rcases List.append_eq_append_iff.mp h with ⟨a, ha, hb⟩ | ⟨a, ha, hb⟩
  · -- pre ++ s = u ++ a, c :: v = a ++ post
    cases a with
    | nil =>
      left
      exact ⟨[], by simpa using ha.symm, by simpa using hb.symm⟩
    | cons x a' =>
      simp only [List.cons_append, List.cons.injEq] at hb
      obtain ⟨rfl, hv⟩ := hb
      right
      rcases List.append_eq_append_iff.mp ha with ⟨b, hb1, hb2⟩ | ⟨b, hb1, hb2⟩
      · -- u = pre ++ b, s = b ++ c :: a'
        exact absurd (by simp [hb2]) hc
      · -- pre = u ++ b, c :: a' = b ++ s
        cases b with
        | nil =>
          simp only [List.nil_append] at hb2
          exact absurd (by simp [← hb2]) hc
        | cons y b' =>
          simp only [List.cons_append, List.cons.injEq] at hb2
          obtain ⟨rfl, ha'⟩ := hb2
          exact ⟨b', hb1, by rw [hv, ha', List.append_assoc]⟩
  · left
    exact ⟨a, ha, hb⟩

theorem split_at_block {s : Str} (hs : s ≠ []) :
    ∀ (K : Str), K ≠ [] → (∀ x ∈ K, x ∉ s) → ∀ (u v pre post : Str),
    u ++ K ++ v = pre ++ s ++ post →
    (∃ w, u = pre ++ s ++ w ∧ post = w ++ K ++ v) ∨
    (∃ w, pre = u ++ K ++ w ∧ v = w ++ s ++ post)
  | [], h0, _ => absurd rfl h0
  | [c], _, hK => by
    intro u v pre post h
    have := split_at_marker (u := u) (v := v) (c := c) (by simpa using h) (hK c (by simp))
    simpa using this
  | c :: d :: K', _, hK => by
    intro u v pre post h
    have h' : u ++ c :: ((d :: K') ++ v) = pre ++ s ++ post := by simpa using h
    rcases split_at_marker h' (hK c (by simp)) with ⟨w, hw1, hw2⟩ | ⟨w, hw1, hw2⟩
    · left
      exact ⟨w, hw1, by simpa using hw2⟩
    · right
      have ih := split_at_block hs (d :: K') (by simp)
        (fun x hx => hK x (List.mem_cons_of_mem _ hx))
        [] v w post (by simpa using hw2)
      rcases ih with ⟨w', hw', -⟩ | ⟨w', hw1', hw2'⟩
      · exfalso
        have hl := congrArg List.length hw'
        have : 0 < s.length := List.length_pos.mpr hs
        simp at hl
        omega
      · refine ⟨w', ?_, hw2'⟩
        rw [hw1, hw1']
        simp

theorem split_before_tail {x R pre s w : Str} {c : Char}
    (h : x ++ R = pre ++ (s ++ [c]) ++ w) (hc : c ∉ R) :
    ∃ w2, x = pre ++ (s ++ [c]) ++ w2 ∧ w = w2 ++ R := by
  have h' : (pre ++ s) ++ c :: w = x ++ R ++ [] := by simpa using h.symm
  rcases split_at_marker h' hc with ⟨w2, -, hw2⟩ | ⟨w2, hw1, hw2⟩
  · simp at hw2
  · exact ⟨w2, by simpa using hw1, by simpa using hw2⟩

theorem infix_split_block {s : Str} (hs : s ≠ []) (K : Str) (hK0 : K ≠ [])
    (hK : ∀ x ∈ K, x ∉ s) {u v : Str} (h : s <:+: u ++ K ++ v) :
    s <:+: u ∨ s <:+: v := by
  obtain ⟨pre, post, hpp⟩ := h
  rcases split_at_block hs K hK0 hK _ _ _ _ hpp.symm with ⟨w, hw, -⟩ | ⟨w, -, hw⟩
  · exact Or.inl ⟨pre, w, hw.symm⟩
  · exact Or.inr ⟨w, post, hw.symm⟩

theorem infix_before_tail {x R s : Str} {c : Char} (h : s ++ [c] <:+: x ++ R) (hc : c ∉ R) :
    s ++ [c] <:+: x := by
  obtain ⟨pre, post, hpp⟩ := h
  obtain ⟨w2, hw, -⟩ := split_before_tail hpp.symm hc
  exact ⟨pre, w2, hw.symm⟩

theorem loaderPath_ne_nil : loaderPath ≠ [] := by decide

theorem loaderPath_plain : ∀ x ∈ loaderPath, Plain x := by
  unfold Plain
  decide

theorem loaderPath_tail : loaderPath = "requirejs/require.j".toList ++ ['s'] := by decide

theorem singleQuotedCall_eq (name : Str) :
    singleQuotedCall name
      = "require".toList ++ "(['".toList ++ (name ++ ".js".toList) ++ "']);".toList := by
  have h1 : "require(['".toList = "require".toList ++ "(['".toList := by decide
  have h2 : ".js']);".toList = ".js".toList ++ "']);".toList := by decide
  rw [singleQuotedCall, h1, h2]
  simp only [List.append_assoc]

theorem doubleQuotedCall_eq (name : Str) :
    doubleQuotedCall name
      = "require".toList ++ "([\"".toList ++ (name ++ ".js".toList) ++ "\"]);".toList := by
  have h1 : "require([\"".toList = "require".toList ++ "([\"".toList := by decide
  have h2 : ".js\"]);".toList = ".js".toList ++ "\"]);".toList := by decide
  rw [doubleQuotedCall, h1, h2]
  simp only [List.append_assoc]

theorem builtResult_eq (name : Str) :
    builtResult name
      = "require".toList ++ "([\"b".toList ++ "ui".toList ++ "lt-".toList
          ++ (name ++ ".js".toList) ++ "\"]);".toList := by
  have h1 : "require([\"built-".toList
      = "require".toList ++ "([\"b".toList ++ "ui".toList ++ "lt-".toList := by decide
  have h2 : ".js\"]);".toList = ".js".toList ++ "\"]);".toList := by decide
  rw [builtResult, h1, h2]
  simp only [List.append_assoc]

/-- A loader reference survives the replacement of a bootstrap call by `builtResult`. -/
theorem loader_infix_replace_call (name t : Str) (K1 K3 : Str) (hK1 : K1 ≠ []) (hK3 : K3 ≠ [])
    (d1 : ∀ x ∈ K1, x ∉ loaderPath) (d3 : ∀ x ∈ K3, x ∉ loaderPath)
    (h : loaderPath <:+: t) :
    loaderPath <:+: replace t ("require".toList ++ K1 ++ (name ++ ".js".toList) ++ K3)
      (builtResult name) := by
  cases hs : splitFirst ("require".toList ++ K1 ++ (name ++ ".js".toList) ++ K3) t with
  | none =>
    simpa only [replace, hs] using h
  | some r =>
    obtain ⟨a, b⟩ := r
    rw [replace_of_split _ hs]
    have ht := splitFirst_eq_some hs
    have h' : loaderPath <:+: (a ++ "require".toList) ++ K1 ++ ((name ++ ".js".toList) ++ K3 ++ b) := by
      rw [ht] at h
      simpa only [List.append_assoc] using h
    rcases infix_split_block loaderPath_ne_nil K1 hK1 d1 h' with hl | hr
    · rw [loaderPath_tail] at hl
      have := infix_before_tail hl (by decide)
      rw [← loaderPath_tail] at this
      exact this.trans ((List.prefix_append _ _).trans (List.prefix_append _ _)).isInfix
    · rcases infix_split_block loaderPath_ne_nil K3 hK3 d3 hr with hn | hb
      · have hB : loaderPath <:+: builtResult name := by
          rw [builtResult_eq]
          exact hn.trans ((List.suffix_append _ _).isInfix.trans (List.prefix_append _ _).isInfix)
        have := infix_getSubstitution
          ("require".toList ++ K1 ++ (name ++ ".js".toList) ++ K3) a b _ _ loaderPath_plain hB
        exact this.trans ((List.suffix_append _ _).isInfix.trans (List.prefix_append _ _).isInfix)
      · exact hb.trans (List.suffix_append _ _).isInfix

theorem replace_loader_of_split {t a b : Str} (h : splitFirst loaderPath t = some (a, b)) :
    replace t loaderPath minLoaderPath = a ++ minLoaderPath ++ b := by
  rw [replace_of_split _ h, getSubstitution_of_no_dollar _ _ _ _ (by decide)]

theorem builtResult_no_dollar {name : Str} (h : '$' ∉ name) : '$' ∉ builtResult name := by
  have h1 : '$' ∉ "require([\"built-".toList := by decide
  have h2 : '$' ∉ ".js\"]);".toList := by decide
  simp only [builtResult, List.mem_append, not_or]
  exact ⟨⟨h1, h⟩, h2⟩

/-- With a name free of `$`, a bootstrap call that is found is replaced by `builtResult`
itself, so the result contains it. -/
theorem built_infix_replace_call {name t pat : Str} (hd : '$' ∉ name)
    (h : builtResult name <:+: t ∨ pat <:+: t) :
    builtResult name <:+: replace t pat (builtResult name) := by
  cases hs : splitFirst pat t with
  | none =>
    rcases h with h | h
    · simpa only [replace, hs] using h
    · obtain ⟨a, b, hab⟩ := splitFirst_of_occurs h
      rw [hs] at hab
      cases hab
  | some r =>
    obtain ⟨a, b⟩ := r
    rw [replace_of_split _ hs, getSubstitution_of_no_dollar _ _ _ _ (builtResult_no_dollar hd)]
    exact ⟨a, b, rfl⟩

/-- The loader replacement leaves an occurrence of `builtResult` in place unless the
loader path occurs inside the name followed by `.js`. -/
theorem built_infix_replace_loader {name t : Str}
    (hno : ¬ loaderPath <:+: name ++ ".js".toList) (h : builtResult name <:+: t) :
    builtResult name <:+: replace t loaderPath minLoaderPath := by
  cases hs : splitFirst loaderPath t with
  | none => simpa only [replace, hs] using h
  | some r =>
    obtain ⟨pre, post⟩ := r
    rw [replace_loader_of_split hs]
    have ht := splitFirst_eq_some hs
    obtain ⟨x, y, hxy⟩ := h
    rw [ht, builtResult_eq] at hxy
    have e1 : (x ++ "require".toList) ++ "([\"b".toList
        ++ ("ui".toList ++ "lt-".toList ++ (name ++ ".js".toList) ++ "\"]);".toList ++ y)
        = pre ++ loaderPath ++ post := by
      rw [← hxy]; simp only [List.append_assoc]
    rcases split_at_block loaderPath_ne_nil _ (by decide) (by decide) _ _ _ _ e1 with
      ⟨w, hw1, hw2⟩ | ⟨w, hw1, hw2⟩
    · rw [loaderPath_tail] at hw1
      obtain ⟨w2, -, hw3⟩ := split_before_tail hw1 (by decide)
      refine ⟨pre ++ minLoaderPath ++ w2, y, ?_⟩
      rw [hw2, hw3, builtResult_eq]
      simp only [List.append_assoc]
    · have e2 : "ui".toList ++ "lt-".toList ++ ((name ++ ".js".toList) ++ "\"]);".toList ++ y)
          = w ++ loaderPath ++ post := by
        rw [← hw2]; simp only [List.append_assoc]
      rcases split_at_block loaderPath_ne_nil _ (by decide) (by decide) _ _ _ _ e2 with
        ⟨w', hw1', -⟩ | ⟨w', hw1', hw2'⟩
      · exfalso
        have hl := congrArg List.length hw1'
        have h20 : loaderPath.length = 20 := by decide
        have h2 : "ui".toList.length = 2 := by decide
        simp only [List.length_append, h20, h2] at hl
        omega
      · have e3 : (name ++ ".js".toList) ++ "\"]);".toList ++ y = w' ++ loaderPath ++ post := by
          rw [← hw2']
        rcases split_at_block loaderPath_ne_nil _ (by decide) (by decide) _ _ _ _ e3 with
          ⟨w3, hw3, -⟩ | ⟨w3, hw3, -⟩
        · exact absurd ⟨w', w3, hw3.symm⟩ hno
        · refine ⟨x, w3 ++ minLoaderPath ++ post, ?_⟩
          rw [hw1, hw1', hw3, builtResult_eq]
          simp only [List.append_assoc]

/-- Replacing a bootstrap call by `builtResult` never lowers the number of letters `b`
and raises it when the call is found. -/
theorem count_b_replace_call (name t pat : Str)
    (hp : pat.count 'b' = name.count 'b') :
    t.count 'b' ≤ (replace t pat (builtResult name)).count 'b' ∧
    (pat <:+: t → t.count 'b' < (replace t pat (builtResult name)).count 'b') := by
  have hB : (builtResult name).count 'b' = name.count 'b' + 1 := by
    have h1 : "require([\"built-".toList.count 'b' = 1 := by decide
    have h2 : ".js\"]);".toList.count 'b' = 0 := by decide
    simp only [builtResult, List.count_append, h1, h2]
    omega
  cases hs : splitFirst pat t with
  | none =>
    refine ⟨by simp [replace, hs], fun h => ?_⟩
    obtain ⟨a, b, hab⟩ := splitFirst_of_occurs h
    rw [hs] at hab
    cases hab
  | some r =>
    obtain ⟨a, b⟩ := r
    have ht := splitFirst_eq_some hs
    have hle := count_getSubstitution_le 'b' (by decide) (by decide) (by decide) (by decide)
      pat a b (builtResult name)
    have key : t.count 'b' < (replace t pat (builtResult name)).count 'b' := by
      rw [replace_of_split _ hs]
      conv_lhs => rw [ht]
      simp only [List.count_append]
      omega
    exact ⟨key.le, fun _ => key⟩

theorem count_b_replace_loader (t : Str) :
    (replace t loaderPath minLoaderPath).count 'b' = t.count 'b' := by
  cases hs : splitFirst loaderPath t with
  | none => simp [replace, hs]
  | some r =>
    obtain ⟨a, b⟩ := r
    have ht := splitFirst_eq_some hs
    rw [replace_loader_of_split hs]
    conv_rhs => rw [ht]
    have h1 : loaderPath.count 'b' = 0 := by decide
    have h2 : minLoaderPath.count 'b' = 0 := by decide
    simp only [List.count_append, h1, h2]

theorem length_replace_loader {t : Str} (h : loaderPath <:+: t) :
    (replace t loaderPath minLoaderPath).length = t.length + 4 := by
  obtain ⟨a, b, hs⟩ := splitFirst_of_occurs h
  have ht := splitFirst_eq_some hs
  rw [replace_loader_of_split hs]
  conv_rhs => rw [ht]
  have h1 : loaderPath.length = 20 := by decide
  have h2 : minLoaderPath.length = 24 := by decide
  simp only [List.length_append, h1, h2]
  omega

theorem singleQuotedCall_count_b (name : Str) :
    (singleQuotedCall name).count 'b' = name.count 'b' := by
  have h1 : "require(['".toList.count 'b' = 0 := by decide
  have h2 : ".js']);".toList.count 'b' = 0 := by decide
  simp only [singleQuotedCall, List.count_append, h1, h2]
  omega

theorem doubleQuotedCall_count_b (name : Str) :
    (doubleQuotedCall name).count 'b' = name.count 'b' := by
  have h1 : "require([\"".toList.count 'b' = 0 := by decide
  have h2 : ".js\"]);".toList.count 'b' = 0 := by decide
  simp only [doubleQuotedCall, List.count_append, h1, h2]
  omega

/-- The rewrite changes every text that holds a loader reference. -/
theorem updateHTML_ne_of_loader (name t : Str) (h : loaderPath <:+: t) :
    updateHTML name t ≠ t := by
  intro heq
  have c1 := count_b_replace_call name t (singleQuotedCall name) (singleQuotedCall_count_b name)
  have c2 := count_b_replace_call name (replace t (singleQuotedCall name) (builtResult name))
    (doubleQuotedCall name) (doubleQuotedCall_count_b name)
  have c3 := count_b_replace_loader
    (replace (replace t (singleQuotedCall name) (builtResult name))
      (doubleQuotedCall name) (builtResult name))
  have hc : (updateHTML name t).count 'b' = t.count 'b' := by rw [heq]
  simp only [updateHTML] at hc heq
  by_cases f1 : singleQuotedCall name <:+: t
  · have := c1.2 f1
    omega
  · have e1 : replace t (singleQuotedCall name) (builtResult name) = t := by
      cases hs : splitFirst (singleQuotedCall name) t with
      | none => simp [replace, hs]
      | some r => exact absurd ⟨r.1, r.2, (splitFirst_eq_some hs).symm⟩ f1
    rw [e1] at c2 c3 hc heq
    by_cases f2 : doubleQuotedCall name <:+: t
    · have := c2.2 f2
      omega
    · have e2 : replace t (doubleQuotedCall name) (builtResult name) = t := by
        cases hs : splitFirst (doubleQuotedCall name) t with
        | none => simp [replace, hs]
        | some r => exact absurd ⟨r.1, r.2, (splitFirst_eq_some hs).symm⟩ f2
      rw [e2] at heq
      have hl := length_replace_loader h
      rw [heq] at hl
      omega



/-! ## The bundle list -/

theorem filterCallback_iff (bundle : Str) (i : Nat) (array : List Str) :
    filterCallback bundle i array = true ↔ ∀ j, array[j]? = some bundle → j ≤ i := by
  simp only [filterCallback, List.all_eq_true, everyCallback]
  constructor
  · intro h j hj
    have := h (j, bundle) (List.mk_mem_enum_iff_getElem?.mpr hj)
    simpa using this
  · intro h jb hjb
    have hjb' := List.mem_enum_iff_getElem?.mp hjb
    by_cases e : bundle = jb.2
    · have := h jb.1 (by rw [hjb', e])
      simp [e, this]
    · simp [e]

theorem filterBundles_cons (x : Str) (t : List Str) :
    filterBundles (x :: t) = if x ∈ t then filterBundles t else x :: filterBundles t := by
  have h0 : filterCallback x 0 (x :: t) = true ↔ x ∉ t := by
    rw [filterCallback_iff]
    constructor
    · intro h hx
      obtain ⟨j, hj⟩ := List.getElem?_of_mem hx
      have := h (j + 1) (by simpa using hj)
      omega
    · intro h j hj
      cases j with
      | zero => exact le_refl _
      | succ j' =>
        exfalso
        apply h
        have : t[j']? = some x := by simpa using hj
        exact List.mem_iff_getElem?.mpr ⟨j', this⟩
  have hs : ((t.enum.map (Prod.map (· + 1) id)).filter
        fun ib => filterCallback ib.2 ib.1 (x :: t)).map Prod.snd = filterBundles t := by
    rw [List.filter_map, List.map_map]
    unfold filterBundles
    have hc : (t.enum.filter ((fun ib : Nat × Str => filterCallback ib.2 ib.1 (x :: t))
          ∘ Prod.map (· + 1) id))
        = t.enum.filter (fun ib => filterCallback ib.2 ib.1 t) := by
      apply List.filter_congr
      intro ib hib
      obtain ⟨i, b⟩ := ib
      rw [Bool.eq_iff_iff]
      simp only [Function.comp_apply, Prod.map_apply, id_eq, filterCallback_iff]
      constructor
      · intro h j hj
        have := h (j + 1) (by simpa using hj)
        omega
      · intro h j hj
        cases j with
        | zero => omega
        | succ j' =>
          have := h j' (by simpa using hj)
          omega
    rw [hc]
    apply List.map_congr_left
    intro ib _
    rfl
  unfold filterBundles at hs ⊢
  rw [List.enum_cons', List.filter_cons]
  by_cases hx : x ∈ t
  · have : ¬ filterCallback x 0 (x :: t) = true := fun h => (h0.mp h) hx
    simp only [this, if_false, hx, if_true]
    exact hs
  · have : filterCallback x 0 (x :: t) = true := h0.mpr hx
    simp only [this, if_true, hx, if_false, List.map_cons]
    rw [hs]

theorem filterBundles_eq_lastOccurrences (array : List Str) :
    filterBundles array = lastOccurrences array := by
  induction array with
  | nil => rfl
  | cons x t ih => rw [filterBundles_cons, lastOccurrences, ih]

theorem mem_lastOccurrences (b : Str) (l : List Str) : b ∈ lastOccurrences l ↔ b ∈ l := by
  induction l with
  | nil => simp [lastOccurrences]
  | cons x t ih =>
    simp only [lastOccurrences]
    split_ifs with hx
    · rw [ih, List.mem_cons]
      constructor
      · exact Or.inr
      · rintro (rfl | h)
        · exact hx
        · exact h
    · simp only [List.mem_cons, ih]

theorem nodup_lastOccurrences (l : List Str) : (lastOccurrences l).Nodup := by
  induction l with
  | nil => simp [lastOccurrences]
  | cons x t ih =>
    simp only [lastOccurrences]
    split_ifs with hx
    · exact ih
    · exact List.nodup_cons.mpr ⟨fun h => hx ((mem_lastOccurrences x t).mp h), ih⟩

theorem count_eq_one_of_nodup {b : Str} : ∀ {l : List Str}, l.Nodup → b ∈ l → l.count b = 1
  | [], _, h => by simp at h
  | x :: t, hn, h => by
    obtain ⟨hx, ht⟩ := List.nodup_cons.mp hn
    rw [List.count_cons]
    by_cases e : x = b
    · subst e
      simp [List.count_eq_zero_of_not_mem hx]
    · have hb : b ∈ t := by
        rcases List.mem_cons.mp h with h | h
        · exact absurd h.symm e
        · exact h
      simp [e, count_eq_one_of_nodup ht hb]

/-- C1, as the code has it. The filter keeps the bundle name at index `i` exactly when no
identical name occurs at any later index, so the bundle list is the order-preserving
deduplication that keeps each name at its last occurrence; the bundles `[A, B, A, C]`
give `[B, A, C]`. -/
theorem bundlesOf_last_occurrence (optimizes : List Optimize) :
    (∀ i bundle, (optimizes.map fun op => op.bundle)[i]? = some bundle →
      (filterCallback bundle i (optimizes.map fun op => op.bundle) = true ↔
        ∀ j, i < j → (optimizes.map fun op => op.bundle)[j]? ≠ some bundle)) ∧
    bundlesOf optimizes = lastOccurrences (optimizes.map fun op => op.bundle) ∧
    filterBundles ["A".toList, "B".toList, "A".toList, "C".toList]
      = ["B".toList, "A".toList, "C".toList] := by
  refine ⟨fun i bundle _ => ?_, filterBundles_eq_lastOccurrences _, by decide⟩
  rw [filterCallback_iff]
  constructor
  · intro h j hij hj
    have := h j hj
    omega
  · intro h j hj
    by_contra hlt
    exact h j (by omega) hj

set_option maxRecDepth 100000 in
/-- C1 as stated fails: for a configuration with four targets whose bundles are
`A, B, A, C` the script computes the bundle list `[B, A, C]`; the name `A` at index 0 is
dropped although no identical name stands before it, and the list is not the
first-occurrence list `[A, B, C]`. -/
theorem bundlesOf_not_first_occurrence :
    (findRequirejsTarget (requirejsDocument
        [optimizeElement "p".toList "a".toList "A".toList,
         optimizeElement "p".toList "b".toList "B".toList,
         optimizeElement "p".toList "c".toList "A".toList,
         optimizeElement "p".toList "d".toList "C".toList])).map
      (fun t => ((optimizesOf exampleEnv t).map (fun op => op.bundle),
        bundlesOf (optimizesOf exampleEnv t)))
      = some (["A".toList, "B".toList, "A".toList, "C".toList],
          ["B".toList, "A".toList, "C".toList]) ∧
    filterCallback "A".toList 0 ["A".toList, "B".toList, "A".toList, "C".toList] = false ∧
    filterBundles ["A".toList, "B".toList, "A".toList, "C".toList]
      ≠ firstOccurrences ["A".toList, "B".toList, "A".toList, "C".toList] ∧
    firstOccurrences ["A".toList, "B".toList, "A".toList, "C".toList]
      = ["A".toList, "B".toList, "C".toList] := by
  decide

/-- C2. The bundle list has no duplicate entries, and a name is an entry of it exactly
when it is the bundle attribute of some target descriptor; every such name occurs in it
exactly once. -/
theorem bundlesOf_nodup_and_mem (optimizes : List Optimize) :
    (bundlesOf optimizes).Nodup ∧
    (∀ bundle, bundle ∈ bundlesOf optimizes ↔ ∃ op ∈ optimizes, op.bundle = bundle) ∧
    (∀ op ∈ optimizes, (bundlesOf optimizes).count op.bundle = 1) := by
  have e : bundlesOf optimizes = lastOccurrences (optimizes.map fun op => op.bundle) :=
    filterBundles_eq_lastOccurrences _
  have hn : (bundlesOf optimizes).Nodup := by rw [e]; exact nodup_lastOccurrences _
  have hm : ∀ bundle, bundle ∈ bundlesOf optimizes ↔ ∃ op ∈ optimizes, op.bundle = bundle := by
    intro bundle
    rw [e, mem_lastOccurrences, List.mem_map]
  refine ⟨hn, hm, fun op hop => ?_⟩
  exact count_eq_one_of_nodup hn ((hm op.bundle).mpr ⟨op, hop, rfl⟩)



/-! ## Traces of the build steps -/

theorem commandsOf_append (a b : List Event) :
    commandsOf (a ++ b) = commandsOf a ++ commandsOf b := by
  simp [commandsOf, List.filterMap_append]

theorem readsOf_append (a b : List Event) : readsOf (a ++ b) = readsOf a ++ readsOf b := by
  simp [readsOf, List.filterMap_append]

theorem exitCodesOf_append (a b : List Event) :
    exitCodesOf (a ++ b) = exitCodesOf a ++ exitCodesOf b := by
  simp [exitCodesOf, List.filterMap_append]

/-- An action that appends events free of exits and resolves behaves accordingly. -/
theorem behaves_of_append {w : World} {a : Task} {c : List (Str × Str)} {r : List Str}
    (h : ∀ tr, ∃ new, a tr = (tr ++ new, Settled.resolved) ∧ commandsOf new = c ∧
      readsOf new = r ∧ exitCodesOf new = []) : Behaves w a c r := by
  intro tr
  obtain ⟨new, ha, hc, hr, hx⟩ := h tr
  rw [ha]
  refine ⟨?_, Or.inl ⟨rfl, ?_, ?_⟩⟩
  · show exitCodesOf (tr ++ new) = _
    rw [exitCodesOf_append, hx, List.append_nil]
  · show commandsOf (tr ++ new) = _
    rw [commandsOf_append, hc]
  · show readsOf (tr ++ new) = _
    rw [readsOf_append, hr]

/-- The callback of `execCommand` only logs. -/
theorem execCallback_eq (r : ExecResult) (tr : List Event) :
    ∃ logs, execCallback r tr = tr ++ logs ∧ commandsOf logs = [] ∧ readsOf logs = [] ∧
      exitCodesOf logs = [] := by
  unfold execCallback
  cases r.error with
  | none =>
    by_cases h : r.stdout = []
    · exact ⟨[], by simp [h], rfl, rfl, rfl⟩
    · exact ⟨[Event.log r.stdout], by simp [h], rfl, rfl, rfl⟩
  | some e =>
    by_cases h : r.stdout = []
    · exact ⟨[Event.log e.stack], by simp [h], rfl, rfl, rfl⟩
    · exact ⟨[Event.log e.stack, Event.log r.stdout], by simp [h], rfl, rfl, rfl⟩

theorem behaves_execCommand (env : Env) (w : World) (cmd : Str) (cwd : Option Str) :
    Behaves w (execCommand env w cmd cwd) [(cmd, cwdOf env cwd)] [] := by
  apply behaves_of_append
  intro tr
  obtain ⟨logs, hl, h1, h2, h3⟩ := execCallback_eq
    (w.exec (execIssue env tr cmd cwd) cmd (cwdOf env cwd)) (execIssue env tr cmd cwd)
  refine ⟨[Event.log cmd, Event.exec cmd (cwdOf env cwd)] ++ logs, ?_, ?_, ?_, ?_⟩
  · show (execCallback _ _, Settled.resolved) = _
    rw [hl, execIssue, List.append_assoc]
  · rw [commandsOf_append, h1]; rfl
  · rw [readsOf_append, h2]; rfl
  · rw [exitCodesOf_append, h3]; rfl

theorem behaves_updateStep (w : World) (op : Optimize) :
    Behaves w (updateStep w op) [] [op.htmlFilePath] := by
  intro tr
  unfold updateStep
  simp only
  cases hr : w.readFile (tr ++ [Event.log ("updateHTML ".toList ++ op.htmlFilePath),
      Event.readFile op.htmlFilePath]) op.htmlFilePath with
  | error err =>
    simp only [commandsOf_append, readsOf_append, exitCodesOf_append]
    exact ⟨by simp [exitCodesOf], Or.inl ⟨trivial, by simp [commandsOf], by simp [readsOf]⟩⟩
  | ok htmlFile =>
    simp only
    cases hw : w.writeFile (tr ++ [Event.log ("updateHTML ".toList ++ op.htmlFilePath),
        Event.readFile op.htmlFilePath] ++ [Event.writeFile op.htmlFilePath
          (updateHTML op.name htmlFile)]) op.htmlFilePath (updateHTML op.name htmlFile) with
    | none =>
      simp only [commandsOf_append, readsOf_append, exitCodesOf_append]
      exact ⟨by simp [exitCodesOf], Or.inl ⟨trivial, by simp [commandsOf], by simp [readsOf]⟩⟩
    | some e =>
      simp only [commandsOf_append, readsOf_append, exitCodesOf_append]
      exact ⟨by simp [exitCodesOf], Or.inr ⟨e, ⟨_, _, _, hw⟩, rfl⟩⟩

theorem behaves_mkdirTemp (env : Env) (w : World) : Behaves w (mkdirTemp env w) [] [] := by
  apply behaves_of_append
  intro tr
  unfold mkdirTemp
  simp only
  cases w.mkdir (tr ++ [Event.mkdir (pathToTempDir env)]) (pathToTempDir env) with
  | none => exact ⟨[Event.mkdir (pathToTempDir env)], rfl, rfl, rfl, rfl⟩
  | some err =>
    simp only
    split_ifs
    · exact ⟨[Event.mkdir (pathToTempDir env), Event.log err.stack],
        by simp, rfl, rfl, rfl⟩
    · exact ⟨[Event.mkdir (pathToTempDir env)], rfl, rfl, rfl, rfl⟩

theorem behaves_andThen {w : World} {a b : Task} {c c' : List (Str × Str)} {r r' : List Str}
    (ha : Behaves w a c r) (hb : Behaves w b c' r') :
    Behaves w (fun tr => andThen (a tr) b) (c ++ c') (r ++ r') := by
  intro tr
  obtain ⟨hx, h | ⟨e, he, h⟩⟩ := ha tr
  · obtain ⟨hs, hc, hr⟩ := h
    have e1 : andThen (a tr) b = b (a tr).1 := by simp only [andThen, hs]
    simp only [e1]
    obtain ⟨hx', h' | ⟨e, he, h'⟩⟩ := hb (a tr).1
    · exact ⟨hx'.trans hx, Or.inl ⟨h'.1, by rw [h'.2.1, hc, List.append_assoc],
        by rw [h'.2.2, hr, List.append_assoc]⟩⟩
    · exact ⟨hx'.trans hx, Or.inr ⟨e, he, h'⟩⟩
  · have e1 : andThen (a tr) b = a tr := by simp only [andThen, h]
    simp only [e1]
    exact ⟨hx, Or.inr ⟨e, he, h⟩⟩

theorem behaves_seq {α : Type} {w : World} (st : α → Task) (c : α → List (Str × Str))
    (r : α → List Str) :
    ∀ l : List α, (∀ x ∈ l, Behaves w (st x) (c x) (r x)) →
      Behaves w (seq (l.map st)) (l.flatMap c) (l.flatMap r)
  | [], _ => by
    apply behaves_of_append
    intro tr
    exact ⟨[], by simp [seq], rfl, rfl, rfl⟩
  | x :: l, h => by
    have hx := h x (by simp)
    have hl := behaves_seq st c r l (fun y hy => h y (List.mem_cons_of_mem _ hy))
    have := behaves_andThen hx hl
    simpa [seq] using this

theorem behaves_after_log {w : World} {a : Task} {c : List (Str × Str)} {r : List Str}
    (ha : Behaves w a c r) (s : Str) :
    Behaves w (fun tr => a (tr ++ [Event.log s])) c r := by
  intro tr
  have := ha (tr ++ [Event.log s])
  simpa [commandsOf_append, readsOf_append, exitCodesOf_append, commandsOf, readsOf,
    exitCodesOf] using this



theorem execAll_issue (env : Env) (w : World) :
    ∀ (cmds : List Str) (tr : List Event) (rs : List ExecResult),
    ∃ new, (cmds.foldl (fun (acc : List Event × List ExecResult) cmd =>
          (execIssue env acc.1 cmd none,
            acc.2 ++ [w.exec (execIssue env acc.1 cmd none) cmd (cwdOf env none)]))
          (tr, rs)).1 = tr ++ new ∧
      commandsOf new = cmds.map (fun cmd => (cmd, pathToTempDir env)) ∧
      readsOf new = [] ∧ exitCodesOf new = []
  | [], tr, rs => ⟨[], by simp, rfl, rfl, rfl⟩
  | cmd :: cmds, tr, rs => by
    obtain ⟨new, h, hc, hr, hx⟩ := execAll_issue env w cmds (execIssue env tr cmd none)
      (rs ++ [w.exec (execIssue env tr cmd none) cmd (cwdOf env none)])
    refine ⟨[Event.log cmd, Event.exec cmd (cwdOf env none)] ++ new, ?_, ?_, ?_, ?_⟩
    · rw [List.foldl_cons, h, execIssue, List.append_assoc]
    · rw [commandsOf_append, hc]; rfl
    · rw [readsOf_append, hr]; rfl
    · rw [exitCodesOf_append, hx]; rfl

theorem execAll_callbacks :
    ∀ (rs : List ExecResult) (tr : List Event),
    ∃ logs, rs.foldl (fun tr r => execCallback r tr) tr = tr ++ logs ∧
      commandsOf logs = [] ∧ readsOf logs = [] ∧ exitCodesOf logs = []
  | [], tr => ⟨[], by simp, rfl, rfl, rfl⟩
  | r :: rs, tr => by
    obtain ⟨l1, h1, c1, r1, x1⟩ := execCallback_eq r tr
    obtain ⟨l2, h2, c2, r2, x2⟩ := execAll_callbacks rs (execCallback r tr)
    refine ⟨l1 ++ l2, ?_, ?_, ?_, ?_⟩
    · rw [List.foldl_cons, h2, h1, List.append_assoc]
    · rw [commandsOf_append, c1, c2]; rfl
    · rw [readsOf_append, r1, r2]; rfl
    · rw [exitCodesOf_append, x1, x2]; rfl

theorem behaves_execAll (env : Env) (w : World) (cmds : List Str) :
    Behaves w (execAll env w cmds) (cmds.map fun cmd => (cmd, pathToTempDir env)) [] := by
  apply behaves_of_append
  intro tr
  obtain ⟨new, h, hc, hr, hx⟩ := execAll_issue env w cmds tr []
  obtain ⟨logs, h2, c2, r2, x2⟩ := execAll_callbacks
    ((cmds.foldl (fun (acc : List Event × List ExecResult) cmd =>
          (execIssue env acc.1 cmd none,
            acc.2 ++ [w.exec (execIssue env acc.1 cmd none) cmd (cwdOf env none)]))
          (tr, [])).2) (tr ++ new)
  refine ⟨new ++ logs, ?_, ?_, ?_, ?_⟩
  · show (List.foldl _ _ _, Settled.resolved) = _
    rw [h, h2, List.append_assoc]
  · rw [commandsOf_append, hc, c2, List.append_nil]
  · rw [readsOf_append, hr, r2]; rfl
  · rw [exitCodesOf_append, hx, x2]; rfl

theorem behaves_publishStep (env : Env) (w : World) (op : Optimize) :
    Behaves w (publishStep env w op)
      ((publishCommands env op).map fun cmd => (cmd, pathToTempDir env)) [] := by
  unfold publishStep publishCommands
  split_ifs
  · exact behaves_execAll env w _
  · exact behaves_execCommand env w _ none

theorem flatMap_singleton_eq_map {α β : Type} (f : α → β) (l : List α) :
    l.flatMap (fun x => [f x]) = l.map f := by
  induction l with
  | nil => rfl
  | cons x t ih => simp [List.flatMap_cons, ih]

theorem flatMap_nil_eq {α β : Type} (l : List α) :
    l.flatMap (fun _ => ([] : List β)) = [] := by
  induction l with
  | nil => rfl
  | cons x t ih => simp [List.flatMap_cons, ih]

theorem behaves_copyPhase (env : Env) (w : World) (optimizes : List Optimize) :
    Behaves w (copyPhase env w (bundlesOf optimizes)) (stagingCommands env optimizes) [] := by
  have h := behaves_seq (w := w) (copyStep env w)
    (fun bundle => [(copyCommand env bundle, pathToTempDir env)]) (fun _ => [])
    (bundlesOf optimizes) (fun bundle _ => behaves_execCommand env w _ none)
  rw [flatMap_singleton_eq_map, flatMap_nil_eq] at h
  exact behaves_after_log h _

theorem behaves_optimizePhase (env : Env) (w : World) (optimizes : List Optimize) :
    Behaves w (optimizePhase env w optimizes) (optimizerCommands env optimizes) [] := by
  have h := behaves_seq (w := w) (optimizeStep env w)
    (fun op => [(optimizeCommand env op,
      cwdOf env (some (env.path.dirname (pathToBuildFile env))))]) (fun _ => [])
    optimizes (fun op _ => behaves_execCommand env w _ _)
  rw [flatMap_singleton_eq_map, flatMap_nil_eq] at h
  exact behaves_after_log h _

theorem behaves_updatePhase (w : World) (optimizes : List Optimize) :
    Behaves w (updatePhase w optimizes) [] (optimizes.map fun op => op.htmlFilePath) := by
  have h := behaves_seq (w := w) (updateStep w) (fun _ => [])
    (fun op => [op.htmlFilePath]) optimizes (fun op _ => behaves_updateStep w op)
  rw [flatMap_singleton_eq_map, flatMap_nil_eq] at h
  exact behaves_after_log h _

theorem behaves_publishPhase (env : Env) (w : World) (optimizes : List Optimize) :
    Behaves w (publishPhase env w optimizes) (publishPhaseCommands env optimizes) [] := by
  have h := behaves_seq (w := w) (publishStep env w)
    (fun op => (publishCommands env op).map fun cmd => (cmd, pathToTempDir env)) (fun _ => [])
    optimizes (fun op _ => behaves_publishStep env w op)
  rw [flatMap_nil_eq] at h
  exact behaves_after_log h _

/-- The five phases of `processFile` before the final callback. -/
theorem behaves_phases (env : Env) (w : World) (optimizes : List Optimize) :
    Behaves w (fun tr => andThen (andThen (andThen (andThen (mkdirTemp env w tr)
        (copyPhase env w (bundlesOf optimizes)))
        (optimizePhase env w optimizes))
        (updatePhase w optimizes))
        (publishPhase env w optimizes))
      (stagingCommands env optimizes ++ optimizerCommands env optimizes
        ++ publishPhaseCommands env optimizes)
      (optimizes.map fun op => op.htmlFilePath) := by
  have h := behaves_andThen (behaves_andThen (behaves_andThen (behaves_andThen
    (behaves_mkdirTemp env w) (behaves_copyPhase env w optimizes))
    (behaves_optimizePhase env w optimizes))
    (behaves_updatePhase w optimizes))
    (behaves_publishPhase env w optimizes)
  simpa using h

theorem andThen_resolved {p : List Event × Settled} (f : Task) (h : p.2 = Settled.resolved) :
    andThen p f = f p.1 := by
  simp only [andThen, h]

theorem andThen_rejected {p : List Event × Settled} (f : Task) {e : Option JsError}
    (h : p.2 = Settled.rejected e) : andThen p f = p := by
  simp only [andThen, h]

/-- How the build steps end: either with `Done.` and exit code 0 after all commands and
reads, or with the rejection of a failed write and no exit so far. -/
theorem buildSteps_cases (env : Env) (w : World) (optimizes : List Optimize)
    (tr : List Event) :
    (∃ tr', buildSteps env w optimizes tr
          = (tr' ++ [Event.log "Done.".toList, Event.exit 0], Settled.exited 0) ∧
        exitCodesOf tr' = exitCodesOf tr ∧
        commandsOf tr' = commandsOf tr ++ (stagingCommands env optimizes
          ++ optimizerCommands env optimizes ++ publishPhaseCommands env optimizes) ∧
        readsOf tr' = readsOf tr ++ optimizes.map fun op => op.htmlFilePath) ∨
    (∃ e, WriteFails w e ∧ (buildSteps env w optimizes tr).2 = Settled.rejected (some e) ∧
        exitCodesOf (buildSteps env w optimizes tr).1 = exitCodesOf tr) := by
  obtain ⟨hx, h | ⟨e, he, h⟩⟩ := behaves_phases env w optimizes tr
  · left
    obtain ⟨hs, hc, hr⟩ := h
    refine ⟨_, ?_, hx, hc, hr⟩
    show andThen _ done = _
    rw [andThen_resolved _ hs]
    rfl
  · right
    refine ⟨e, he, ?_, ?_⟩
    · show (andThen _ done).2 = _
      rw [andThen_rejected _ h]
      exact h
    · show exitCodesOf (andThen _ done).1 = _
      rw [andThen_rejected _ h]
      exact hx


/-! ## The command templates -/


theorem copyCommand_posix (env : Env) (bundle : Str) (h : env.IS_WINDOWS = false) :
    copyCommand env bundle = "cp -R ".toList
      ++ env.path.resolve [pathToBundlesFolder env, bundle, BUNDLE_WEB_FOLDER]
      ++ "/* ".toList ++ pathToTempDir env := by
  simp [copyCommand, h, formatNumbered, format, formatGo, lookupArg]

theorem optimizeCommand_eq (env : Env) (op : Optimize) :
    optimizeCommand env op = "node ".toList ++ pathToRjs env ++ " -o ".toList
      ++ pathToBuildFile env ++ " name=".toList ++ (op.pageDir ++ "/".toList ++ op.name)
      ++ " out=".toList
      ++ ("./.temp/".toList ++ op.pageDir ++ "/built-".toList ++ op.name ++ ".js".toList)
      ++ " baseUrl=".toList ++ "./.temp/".toList := by
  simp [optimizeCommand, optimizeArgs, format, formatGo, lookupArg]

theorem publishCommands_posix (env : Env) (op : Optimize) (h : env.IS_WINDOWS = false) :
    publishCommands env op = ["cp ".toList ++ op.minifiedFilePath ++ " ".toList
      ++ op.htmlFilePath ++ " ".toList
      ++ env.path.join [pathToBundlesFolder env, op.bundle, BUNDLE_WEB_FOLDER, op.pageDir]] := by
  simp [publishCommands, publishArgs, h, format, formatGo, lookupArg]

theorem publishCommands_windows (env : Env) (op : Optimize) (h : env.IS_WINDOWS = true) :
    publishCommands env op =
      ["xcopy /q /y ".toList ++ op.minifiedFilePath ++ " ".toList
        ++ env.path.join [pathToBundlesFolder env, op.bundle, BUNDLE_WEB_FOLDER, op.pageDir],
       "xcopy /q /y ".toList ++ op.htmlFilePath ++ " ".toList
        ++ env.path.join [pathToBundlesFolder env, op.bundle, BUNDLE_WEB_FOLDER, op.pageDir]] := by
  simp [publishCommands, publishArgs, h, format, formatGo, lookupArg]


/-! ## Whole runs -/


/-- Once `customTargets.xml` has been read, the script is the run on its parsed text. -/
theorem main_of_read (env : Env) (w : World) (xml : Str)
    (h : w.readFile [Event.readFile (env.path.join [env.__dirname, "customTargets.xml".toList])]
      (env.path.join [env.__dirname, "customTargets.xml".toList]) = Except.ok xml) :
    main env w = runDocument env w (env.parseFromString xml)
      [Event.readFile (env.path.join [env.__dirname, "customTargets.xml".toList])] := by
  simp only [main, h]

theorem runDocument_cases (env : Env) (w : World) (document : Document)
    (requirejsTarget : Element) (tr : List Event)
    (hdoc : findRequirejsTarget document = some requirejsTarget) :
    (∃ tr', runDocument env w document tr = tr' ++ [Event.log "Done.".toList, Event.exit 0] ∧
        (processFile env w document tr).2 = Settled.exited 0 ∧
        exitCodesOf tr' = exitCodesOf tr ∧
        commandsOf tr' = commandsOf tr ++ (stagingCommands env (optimizesOf env requirejsTarget)
          ++ optimizerCommands env (optimizesOf env requirejsTarget)
          ++ publishPhaseCommands env (optimizesOf env requirejsTarget)) ∧
        readsOf tr' = readsOf tr ++ (optimizesOf env requirejsTarget).map fun op => op.htmlFilePath) ∨
    (∃ e, WriteFails w e ∧ (processFile env w document tr).2 = Settled.rejected (some e) ∧
        exitCodesOf (runDocument env w document tr) = exitCodesOf tr ++ [1]) := by
  have hp : processFile env w document tr
      = buildSteps env w (optimizesOf env requirejsTarget) tr := by
    simp only [processFile, hdoc]
  rcases buildSteps_cases env w (optimizesOf env requirejsTarget) tr with
    ⟨tr', h, hx, hc, hr⟩ | ⟨e, he, h, hx⟩
  · left
    refine ⟨tr', ?_, ?_, hx, hc, hr⟩
    · simp only [runDocument, finish, hp, h]
    · rw [hp, h]
  · right
    refine ⟨e, he, by rw [hp, h], ?_⟩
    simp only [runDocument, finish, hp, h, exitFail, exitCodesOf_append, hx]
    rfl

theorem not_writeFails {w : World} (hw : WritesSucceed w) (e : JsError) : ¬ WriteFails w e := by
  rintro ⟨tr, path, data, h⟩
  rw [hw tr path data] at h
  cases h

theorem runDocument_of_writes (env : Env) (w : World) (document : Document)
    (requirejsTarget : Element) (tr : List Event)
    (hdoc : findRequirejsTarget document = some requirejsTarget) (hw : WritesSucceed w) :
    (processFile env w document tr).2 = Settled.exited 0 ∧
    exitCodesOf (runDocument env w document tr) = exitCodesOf tr ++ [0] ∧
    commandsOf (runDocument env w document tr)
      = commandsOf tr ++ (stagingCommands env (optimizesOf env requirejsTarget)
          ++ optimizerCommands env (optimizesOf env requirejsTarget)
          ++ publishPhaseCommands env (optimizesOf env requirejsTarget)) ∧
    readsOf (runDocument env w document tr)
      = readsOf tr ++ (optimizesOf env requirejsTarget).map fun op => op.htmlFilePath := by
  rcases runDocument_cases env w document requirejsTarget tr hdoc with
    ⟨tr', h, hs, hx, hc, hr⟩ | ⟨e, he, -⟩
  · refine ⟨hs, ?_, ?_, ?_⟩
    · rw [h, exitCodesOf_append, hx]; rfl
    · rw [h, commandsOf_append, hc]; simp [commandsOf]
    · rw [h, readsOf_append, hr]; simp [readsOf]
  · exact absurd he (not_writeFails hw e)

theorem length_bundlesOf (optimizes : List Optimize) :
    (bundlesOf optimizes).length = (optimizes.map fun op => op.bundle).toFinset.card := by
  have e : bundlesOf optimizes = lastOccurrences (optimizes.map fun op => op.bundle) :=
    filterBundles_eq_lastOccurrences _
  rw [e, ← List.toFinset_card_of_nodup (nodup_lastOccurrences _)]
  congr 1
  ext b
  simp only [List.mem_toFinset, mem_lastOccurrences]



/-! ## The HTML rewrite: what is written back -/

/-- C5. Whenever the text read contains `requirejs/require.js`, the text written back
contains `requirejs/require.min.js`, whether or not either bootstrap replacement fired
before the loader replacement. -/
theorem updateHTML_contains_minLoaderPath (name htmlFile : Str)
    (h : loaderPath <:+: htmlFile) :
    minLoaderPath <:+: updateHTML name htmlFile := by
  have s1 : loaderPath <:+: replace htmlFile (singleQuotedCall name) (builtResult name) := by
    rw [singleQuotedCall_eq]
    exact loader_infix_replace_call name htmlFile _ _ (by decide) (by decide)
      (by decide) (by decide) h
  have s2 : loaderPath <:+: replace (replace htmlFile (singleQuotedCall name) (builtResult name))
      (doubleQuotedCall name) (builtResult name) := by
    rw [doubleQuotedCall_eq]
    exact loader_infix_replace_call name _ _ _ (by decide) (by decide)
      (by decide) (by decide) s1
  obtain ⟨a, b, hs⟩ := splitFirst_of_occurs s2
  simp only [updateHTML]
  rw [replace_loader_of_split hs]
  exact ⟨a, b, rfl⟩

/-- Witness for C5: a page with a bootstrap call and a loader reference. -/
theorem updateHTML_contains_minLoaderPath_witness :
    loaderPath <:+: "<script src=\"requirejs/require.js\"></script>require(['home.js']);".toList ∧
    minLoaderPath <:+: updateHTML "home".toList
      "<script src=\"requirejs/require.js\"></script>require(['home.js']);".toList :=
  ⟨by decide, updateHTML_contains_minLoaderPath _ _ (by decide)⟩

/-- C3, as the code has it. When the target name contains no `$` and the loader path
`requirejs/require.js` does not occur in the name followed by `.js`, every text that
contains the single-quoted bootstrap call is rewritten to a text that contains
`builtResult`, the double-quoted call loading `built-<name>.js`. -/
theorem updateHTML_contains_builtResult (name htmlFile : Str)
    (hd : '$' ∉ name) (hno : ¬ loaderPath <:+: name ++ ".js".toList)
    (h : singleQuotedCall name <:+: htmlFile) :
    builtResult name <:+: updateHTML name htmlFile := by
  simp only [updateHTML]
  exact built_infix_replace_loader hno
    (built_infix_replace_call hd (Or.inl (built_infix_replace_call hd (Or.inr h))))

/-- Witness for C3: the text `require(['home.js']);` with target name `home`. -/
theorem updateHTML_contains_builtResult_witness :
    ('$' ∉ "home".toList ∧ ¬ loaderPath <:+: "home".toList ++ ".js".toList ∧
      singleQuotedCall "home".toList <:+: "require(['home.js']);".toList) ∧
    builtResult "home".toList <:+: updateHTML "home".toList "require(['home.js']);".toList :=
  ⟨⟨by decide, by decide, by decide⟩,
    updateHTML_contains_builtResult _ _ (by decide) (by decide) (by decide)⟩

/-- C3 as stated fails on two kinds of target name. For the name `requirejs/require` the
loader replacement rewrites the call just produced; for the name `a$$b` the replacement
text is expanded and `$$` becomes `$`. In both runs the text read contains the
single-quoted call and the text written does not contain `builtResult`. -/
theorem updateHTML_builtResult_lost :
    (singleQuotedCall "requirejs/require".toList <:+: "require(['requirejs/require.js']);".toList ∧
      updateHTML "requirejs/require".toList "require(['requirejs/require.js']);".toList
        = "require([\"built-requirejs/require.min.js\"]);".toList ∧
      ¬ builtResult "requirejs/require".toList <:+:
        updateHTML "requirejs/require".toList "require(['requirejs/require.js']);".toList) ∧
    (singleQuotedCall "a$$b".toList <:+: "require(['a$$b.js']);".toList ∧
      updateHTML "a$$b".toList "require(['a$$b.js']);".toList
        = "require([\"built-a$b.js\"]);".toList ∧
      ¬ builtResult "a$$b".toList <:+: updateHTML "a$$b".toList "require(['a$$b.js']);".toList) := by
  decide

/-- C4, as the code has it. A text that contains neither bootstrap call is changed by the
loader replacement alone; it is written back unchanged exactly when it holds no
`requirejs/require.js` either. -/
theorem updateHTML_of_no_call (name htmlFile : Str)
    (h1 : ¬ singleQuotedCall name <:+: htmlFile) (h2 : ¬ doubleQuotedCall name <:+: htmlFile) :
    updateHTML name htmlFile = replace htmlFile loaderPath minLoaderPath ∧
    (updateHTML name htmlFile = htmlFile ↔ ¬ loaderPath <:+: htmlFile) := by
  have e : updateHTML name htmlFile = replace htmlFile loaderPath minLoaderPath := by
    simp only [updateHTML]
    rw [replace_of_absent _ h1, replace_of_absent _ h2]
  refine ⟨e, ?_, fun h => ?_⟩
  · intro heq hl
    exact updateHTML_ne_of_loader name htmlFile hl heq
  · rw [e, replace_of_absent _ h]

/-- Witness for C4: a page without bootstrap call and without loader reference. -/
theorem updateHTML_of_no_call_witness :
    (¬ singleQuotedCall "home".toList <:+: "<p>hello</p>".toList ∧
      ¬ doubleQuotedCall "home".toList <:+: "<p>hello</p>".toList) ∧
    updateHTML "home".toList "<p>hello</p>".toList
        = replace "<p>hello</p>".toList loaderPath minLoaderPath ∧
    (updateHTML "home".toList "<p>hello</p>".toList = "<p>hello</p>".toList ↔
      ¬ loaderPath <:+: "<p>hello</p>".toList) :=
  ⟨⟨by decide, by decide⟩, updateHTML_of_no_call _ _ (by decide) (by decide)⟩

/-- C4 as stated fails: the text `requirejs/require.js` contains neither bootstrap call
for the name `home`, and the text written back differs from it. -/
theorem updateHTML_changes_without_call :
    ¬ singleQuotedCall "home".toList <:+: "requirejs/require.js".toList ∧
    ¬ doubleQuotedCall "home".toList <:+: "requirejs/require.js".toList ∧
    updateHTML "home".toList "requirejs/require.js".toList = "requirejs/require.min.js".toList ∧
    updateHTML "home".toList "requirejs/require.js".toList ≠ "requirejs/require.js".toList := by
  decide



/-- C10. A `replace` call rewrites the leftmost occurrence of its pattern only. On a text
that contains neither bootstrap call for the target name, the rewrite replaces the
leftmost `requirejs/require.js` by `requirejs/require.min.js` and leaves the text before
and after it as it was. A text with two loader references therefore still contains
`requirejs/require.js` after the rewrite, and rewriting the result once more changes it
again. -/
theorem updateHTML_first_loader_only (name htmlFile : Str)
    (h1 : ¬ singleQuotedCall name <:+: htmlFile) (h2 : ¬ doubleQuotedCall name <:+: htmlFile) :
    (∀ pat repl a b, htmlFile = a ++ pat ++ b →
        (∀ a' b', htmlFile = a' ++ pat ++ b' → a.length ≤ a'.length) →
        replace htmlFile pat repl = a ++ getSubstitution pat a b repl ++ b) ∧
    (∀ a b, htmlFile = a ++ loaderPath ++ b →
        (∀ a' b', htmlFile = a' ++ loaderPath ++ b' → a.length ≤ a'.length) →
        updateHTML name htmlFile = a ++ minLoaderPath ++ b) ∧
    (∀ a m c, htmlFile = a ++ loaderPath ++ m ++ loaderPath ++ c →
        loaderPath <:+: updateHTML name htmlFile ∧
        updateHTML name (updateHTML name htmlFile) ≠ updateHTML name htmlFile) := by
  have e : updateHTML name htmlFile = replace htmlFile loaderPath minLoaderPath := by
    simp only [updateHTML]
    rw [replace_of_absent _ h1, replace_of_absent _ h2]
  refine ⟨fun pat repl a b hab hmin => replace_of_split repl (splitFirst_unique hab hmin),
    ?_, ?_⟩
  · intro a b hab hmin
    rw [e, replace_loader_of_split (splitFirst_unique hab hmin)]
  · intro a m c hamc
    have hin : loaderPath <:+: htmlFile := ⟨a, m ++ loaderPath ++ c, by
      rw [hamc]; simp only [List.append_assoc]⟩
    obtain ⟨a0, b0, hs⟩ := splitFirst_of_occurs hin
    have ht := splitFirst_eq_some hs
    have hle : a0.length ≤ a.length :=
      splitFirst_least hs a (m ++ loaderPath ++ c) (by rw [hamc]; simp only [List.append_assoc])
    have hb0 : loaderPath <:+: b0 := by
      have e1 : a0 ++ (loaderPath ++ b0) = a ++ (loaderPath ++ m ++ (loaderPath ++ c)) := by
        rw [← List.append_assoc, ← ht, hamc]; simp only [List.append_assoc]
      have e2 := congrArg (List.drop (a.length + (loaderPath ++ m).length)) e1
      rw [← List.append_assoc a, ← List.length_append, List.drop_left] at e2
      have h20 : loaderPath.length = 20 := by decide
      have hge : a0.length + loaderPath.length ≤ a.length + (loaderPath ++ m).length := by
        simp only [List.length_append]; omega
      have e3 : a0 ++ (loaderPath ++ b0) = (a0 ++ loaderPath) ++ b0 := by
        simp only [List.append_assoc]
      rw [e3, List.drop_append_eq_append_drop, List.drop_of_length_le
        (by simpa only [List.length_append] using hge), List.nil_append] at e2
      have : loaderPath ++ c <:+ b0 := by
        rw [← e2]; exact List.drop_suffix _ _
      exact (List.prefix_append _ _).isInfix.trans this.isInfix
    have hres : loaderPath <:+: updateHTML name htmlFile := by
      rw [e, replace_loader_of_split hs]
      exact hb0.trans (List.suffix_append _ _).isInfix
    exact ⟨hres, updateHTML_ne_of_loader name _ hres⟩

/-- Witness for C10: a page with two loader references and no bootstrap call. -/
theorem updateHTML_first_loader_only_witness :
    (¬ singleQuotedCall "home".toList <:+: "requirejs/require.js requirejs/require.js".toList ∧
      ¬ doubleQuotedCall "home".toList <:+: "requirejs/require.js requirejs/require.js".toList) ∧
    updateHTML "home".toList "requirejs/require.js requirejs/require.js".toList
      = "requirejs/require.min.js requirejs/require.js".toList ∧
    loaderPath <:+: updateHTML "home".toList "requirejs/require.js requirejs/require.js".toList ∧
    updateHTML "home".toList
        (updateHTML "home".toList "requirejs/require.js requirejs/require.js".toList)
      ≠ updateHTML "home".toList "requirejs/require.js requirejs/require.js".toList := by
  have h := updateHTML_first_loader_only "home".toList
    "requirejs/require.js requirejs/require.js".toList (by decide) (by decide)
  have h2 := h.2.2 [] " ".toList [] (by decide)
  exact ⟨⟨by decide, by decide⟩, by decide, h2.1, h2.2⟩



/-! ## The pipeline: command sequence, failure tolerance, configuration lookup -/

/-- C6, as the code has it. For a configuration whose `requirejs` target is present and a
run in which every HTML write-back succeeds, the external commands issued are, in this
order: one copy per entry of the bundle list, one optimizer invocation per target, and
the publish copies per target (on POSIX one `cp` naming the staged `built-<name>.js`
and the staged `<name>.html` with the destination under the bundles folder, on Windows
two `xcopy` commands). The staging copies are as many as the distinct bundle names, the
optimizer invocations as many as the targets, and two files per target are published. -/
theorem pipeline_command_sequence (env : Env) (w : World) (document : Document)
    (requirejsTarget : Element) (tr : List Event)
    (hdoc : findRequirejsTarget document = some requirejsTarget) (hw : WritesSucceed w) :
    commandsOf (runDocument env w document tr)
      = commandsOf tr ++ (stagingCommands env (optimizesOf env requirejsTarget)
          ++ optimizerCommands env (optimizesOf env requirejsTarget)
          ++ publishPhaseCommands env (optimizesOf env requirejsTarget)) ∧
    (stagingCommands env (optimizesOf env requirejsTarget)).length
      = ((optimizesOf env requirejsTarget).map fun op => op.bundle).toFinset.card ∧
    (optimizerCommands env (optimizesOf env requirejsTarget)).length
      = (optimizesOf env requirejsTarget).length ∧
    (env.IS_WINDOWS = false →
      stagingCommands env (optimizesOf env requirejsTarget)
        = (bundlesOf (optimizesOf env requirejsTarget)).map fun bundle =>
            ("cp -R ".toList
              ++ env.path.resolve [pathToBundlesFolder env, bundle, BUNDLE_WEB_FOLDER]
              ++ "/* ".toList ++ pathToTempDir env,
             pathToTempDir env)) ∧
    optimizerCommands env (optimizesOf env requirejsTarget)
      = (optimizesOf env requirejsTarget).map (fun op =>
          ("node ".toList ++ pathToRjs env ++ " -o ".toList ++ pathToBuildFile env
            ++ " name=".toList ++ (op.pageDir ++ "/".toList ++ op.name) ++ " out=".toList
            ++ ("./.temp/".toList ++ op.pageDir ++ "/built-".toList ++ op.name ++ ".js".toList)
            ++ " baseUrl=".toList ++ "./.temp/".toList,
           optimizerCwd env)) ∧
    (env.IS_WINDOWS = false →
      publishPhaseCommands env (optimizesOf env requirejsTarget)
        = (optimizesOf env requirejsTarget).map fun op =>
            ("cp ".toList ++ op.minifiedFilePath ++ " ".toList ++ op.htmlFilePath ++ " ".toList
              ++ env.path.join
                [pathToBundlesFolder env, op.bundle, BUNDLE_WEB_FOLDER, op.pageDir],
             pathToTempDir env)) ∧
    (env.IS_WINDOWS = true →
      publishPhaseCommands env (optimizesOf env requirejsTarget)
        = (optimizesOf env requirejsTarget).flatMap fun op =>
            [("xcopy /q /y ".toList ++ op.minifiedFilePath ++ " ".toList
                ++ env.path.join
                  [pathToBundlesFolder env, op.bundle, BUNDLE_WEB_FOLDER, op.pageDir],
              pathToTempDir env),
             ("xcopy /q /y ".toList ++ op.htmlFilePath ++ " ".toList
                ++ env.path.join
                  [pathToBundlesFolder env, op.bundle, BUNDLE_WEB_FOLDER, op.pageDir],
              pathToTempDir env)]) ∧
    (∀ op ∈ optimizesOf env requirejsTarget,
      op.minifiedFilePath
        = env.path.join [pathToTempDir env, op.pageDir, "built-".toList ++ op.name]
          ++ ".js".toList ∧
      op.htmlFilePath = env.path.join [pathToTempDir env, op.pageDir, op.name ++ ".html".toList]) ∧
    ((optimizesOf env requirejsTarget).flatMap fun op =>
        [op.minifiedFilePath, op.htmlFilePath]).length
      = 2 * (optimizesOf env requirejsTarget).length := by
  refine ⟨(runDocument_of_writes env w document requirejsTarget tr hdoc hw).2.2.1, ?_, ?_,
    ?_, ?_, ?_, ?_, ?_, ?_⟩
  · rw [stagingCommands, List.length_map, length_bundlesOf]
  · rw [optimizerCommands, List.length_map]
  · intro h
    unfold stagingCommands
    simp only [copyCommand_posix env _ h]
  · unfold optimizerCommands optimizerCwd
    simp only [optimizeCommand_eq]
  · intro h
    unfold publishPhaseCommands
    simp only [publishCommands_posix env _ h, List.map_cons, List.map_nil]
    exact flatMap_singleton_eq_map _ _
  · intro h
    unfold publishPhaseCommands
    simp only [publishCommands_windows env _ h, List.map_cons, List.map_nil]
  · intro op hop
    obtain ⟨e, -, rfl⟩ := List.mem_map.mp hop
    exact ⟨rfl, rfl⟩
  · induction optimizesOf env requirejsTarget with
    | nil => rfl
    | cons x t ih =>
      rw [List.flatMap_cons, List.length_append, ih, List.length_cons]
      simp only [List.length_cons, List.length_nil]
      omega

set_option maxRecDepth 100000 in
/-- Witness for C6: two targets in the bundle `core` and one in `extra` on a POSIX host
give two staging copies, three optimizer invocations and three `cp` commands that
publish six files. -/
theorem pipeline_command_sequence_witness :
    (findRequirejsTarget exampleDocument).isSome ∧ WritesSucceed quietWorld ∧
    (commandsOf (runDocument exampleEnv quietWorld exampleDocument [])).map Prod.fst
      = [ "cp -R /orion/bundles/core/web/* /orion/build/.temp".toList,
          "cp -R /orion/bundles/extra/web/* /orion/build/.temp".toList,
          "node /orion/build/r.js -o /orion/build/orion.build.js name=edit/edit out=./.temp/edit/built-edit.js baseUrl=./.temp/".toList,
          "node /orion/build/r.js -o /orion/build/orion.build.js name=settings/settings out=./.temp/settings/built-settings.js baseUrl=./.temp/".toList,
          "node /orion/build/r.js -o /orion/build/orion.build.js name=git/git-status out=./.temp/git/built-git-status.js baseUrl=./.temp/".toList,
          "cp /orion/build/.temp/edit/built-edit.js /orion/build/.temp/edit/edit.html /orion/bundles/core/web/edit".toList,
          "cp /orion/build/.temp/settings/built-settings.js /orion/build/.temp/settings/settings.html /orion/bundles/core/web/settings".toList,
          "cp /orion/build/.temp/git/built-git-status.js /orion/build/.temp/git/git-status.html /orion/bundles/extra/web/git".toList ] := by
  have hw : WritesSucceed quietWorld := fun _ _ _ => rfl
  have h := pipeline_command_sequence exampleEnv quietWorld exampleDocument
    (Element.mk "target".toList [("name".toList, "requirejs".toList)]
      [ optimizeElement "edit".toList "edit".toList "core".toList,
        optimizeElement "settings".toList "settings".toList "core".toList,
        optimizeElement "git".toList "git-status".toList "extra".toList ]) [] rfl hw
  refine ⟨by decide, hw, ?_⟩
  rw [h.1]
  decide

set_option maxRecDepth 100000 in
/-- C6 as stated fails in a run whose HTML write-back fails: the configuration has its
`requirejs` target, the copy and the optimizer command are issued, and no publish
command follows. -/
theorem publish_skipped_when_write_fails :
    (findRequirejsTarget oneTargetDocument).isSome ∧
    (commandsOf (runDocument exampleEnv readOnlyWorld oneTargetDocument [])).map Prod.fst
      = [ "cp -R /orion/bundles/core/web/* /orion/build/.temp".toList,
          "node /orion/build/r.js -o /orion/build/orion.build.js name=edit/edit out=./.temp/edit/built-edit.js baseUrl=./.temp/".toList ] ∧
    (commandsOf (runDocument exampleEnv quietWorld oneTargetDocument [])).map Prod.fst
      = [ "cp -R /orion/bundles/core/web/* /orion/build/.temp".toList,
          "node /orion/build/r.js -o /orion/build/orion.build.js name=edit/edit out=./.temp/edit/built-edit.js baseUrl=./.temp/".toList,
          "cp /orion/build/.temp/edit/built-edit.js /orion/build/.temp/edit/edit.html /orion/bundles/core/web/edit".toList ] := by
  decide



/-- C7. For a configuration whose `requirejs` target is present, whatever the outcomes
of the staging-directory creation, of every external command and of every HTML read
(the write-backs that take place succeeding), the run issues the same external commands
and reads the HTML file of every target, exactly as any other such run does, in
particular one in which everything succeeds, and it ends with exit code 0. -/
theorem pipeline_best_effort (env : Env) (w w' : World) (document : Document)
    (requirejsTarget : Element) (tr : List Event)
    (hdoc : findRequirejsTarget document = some requirejsTarget)
    (hw : WritesSucceed w) (hw' : WritesSucceed w') :
    commandsOf (runDocument env w document tr) = commandsOf (runDocument env w' document tr) ∧
    readsOf (runDocument env w document tr) = readsOf (runDocument env w' document tr) ∧
    readsOf (runDocument env w document tr)
      = readsOf tr ++ (optimizesOf env requirejsTarget).map (fun op => op.htmlFilePath) ∧
    commandsOf (runDocument env w document tr)
      = commandsOf tr ++ (stagingCommands env (optimizesOf env requirejsTarget)
          ++ optimizerCommands env (optimizesOf env requirejsTarget)
          ++ publishPhaseCommands env (optimizesOf env requirejsTarget)) ∧
    exitCodesOf (runDocument env w document tr) = exitCodesOf tr ++ [0] := by
  obtain ⟨-, hx, hc, hr⟩ := runDocument_of_writes env w document requirejsTarget tr hdoc hw
  obtain ⟨-, -, hc', hr'⟩ := runDocument_of_writes env w' document requirejsTarget tr hdoc hw'
  exact ⟨by rw [hc, hc'], by rw [hr, hr'], hr, hc, hx⟩

set_option maxRecDepth 100000 in
/-- Witness for C7: the run in which the directory creation, every command and every
read fail, against the run in which everything succeeds. -/
theorem pipeline_best_effort_witness :
    (findRequirejsTarget exampleDocument).isSome ∧
    WritesSucceed failingWorld ∧ WritesSucceed quietWorld ∧
    commandsOf (runDocument exampleEnv failingWorld exampleDocument [])
      = commandsOf (runDocument exampleEnv quietWorld exampleDocument []) ∧
    readsOf (runDocument exampleEnv failingWorld exampleDocument [])
      = [ "/orion/build/.temp/edit/edit.html".toList,
          "/orion/build/.temp/settings/settings.html".toList,
          "/orion/build/.temp/git/git-status.html".toList ] ∧
    exitCodesOf (runDocument exampleEnv failingWorld exampleDocument []) = [0] := by
  have hf : WritesSucceed failingWorld := fun _ _ _ => rfl
  have hq : WritesSucceed quietWorld := fun _ _ _ => rfl
  have h := pipeline_best_effort exampleEnv failingWorld quietWorld exampleDocument
    (Element.mk "target".toList [("name".toList, "requirejs".toList)]
      [ optimizeElement "edit".toList "edit".toList "core".toList,
        optimizeElement "settings".toList "settings".toList "core".toList,
        optimizeElement "git".toList "git-status".toList "extra".toList ]) [] rfl hf hq
  exact ⟨by decide, hf, hq, h.1, by decide, h.2.2.2.2⟩

set_option maxRecDepth 100000 in
/-- C8 at a document without a `requirejs` target. Whatever the world, `processFile`
logs its message and nothing else happens, but the value it returns is not a rejected
promise: the top-level chain resolves and the process ends with exit code 0, not 1.
The document whose only `target` is named `build` is such a run. -/
theorem processFile_missing_target_exits_zero (env : Env) (w : World) (document : Document)
    (tr : List Event) :
    (findRequirejsTarget document = none →
      processFile env w document tr
        = (tr ++ [Event.log
            "Whoa! Couldn't find a <target name=\"requirejs\"> element in customTargets.xml".toList],
          Settled.resolved) ∧
      runDocument env w document tr
        = tr ++ [Event.log
            "Whoa! Couldn't find a <target name=\"requirejs\"> element in customTargets.xml".toList,
          Event.exit 0]) ∧
    (findRequirejsTarget noTargetDocument).isNone = true ∧
    runDocument exampleEnv quietWorld noTargetDocument []
      = [Event.log
          "Whoa! Couldn't find a <target name=\"requirejs\"> element in customTargets.xml".toList,
        Event.exit 0] ∧
    exitCodesOf (runDocument exampleEnv quietWorld noTargetDocument []) = [0] := by
  refine ⟨fun h => ?_, by decide, by decide, by decide⟩
  have hp : processFile env w document tr
      = (tr ++ [Event.log
          "Whoa! Couldn't find a <target name=\"requirejs\"> element in customTargets.xml".toList],
        Settled.resolved) := by
    simp only [processFile, h]
  refine ⟨hp, ?_⟩
  simp only [runDocument, finish, hp, exitSuccess, List.append_assoc, List.singleton_append]

/-! ## The optimizer paths -/

set_option maxRecDepth 100000 in
/-- C9 at a build file outside the script directory. With the script in `/orion/build`
and `process.argv[2] = conf/orion.build.js`, the optimizer for the target `edit/edit`
runs in `/orion/build/conf` with module name `edit/edit`; its `out=` and `baseUrl=`
arguments resolve there to `/orion/build/conf/.temp/edit/built-edit.js` and
`/orion/build/conf/.temp`, while the descriptor's `minifiedFilePath`, which the publish
phase copies, is `/orion/build/.temp/edit/built-edit.js` and the staging root is
`/orion/build/.temp`. With the default build file the two pairs of paths agree. -/
theorem optimizer_paths_at_relocated_build_file :
    optimizerCwd relocatedEnv = "/orion/build/conf".toList ∧
    lookupArg (optimizeArgs relocatedEnv (editTarget relocatedEnv)) "name".toList
      = "edit/edit".toList ∧
    relocatedEnv.path.resolve [optimizerCwd relocatedEnv,
        lookupArg (optimizeArgs relocatedEnv (editTarget relocatedEnv)) "out".toList]
      = "/orion/build/conf/.temp/edit/built-edit.js".toList ∧
    (editTarget relocatedEnv).minifiedFilePath = "/orion/build/.temp/edit/built-edit.js".toList ∧
    relocatedEnv.path.resolve [optimizerCwd relocatedEnv,
        lookupArg (optimizeArgs relocatedEnv (editTarget relocatedEnv)) "baseUrl".toList]
      = "/orion/build/conf/.temp".toList ∧
    pathToTempDir relocatedEnv = "/orion/build/.temp".toList ∧
    exampleEnv.path.resolve [optimizerCwd exampleEnv,
        lookupArg (optimizeArgs exampleEnv (editTarget exampleEnv)) "out".toList]
      = (editTarget exampleEnv).minifiedFilePath ∧
    exampleEnv.path.resolve [optimizerCwd exampleEnv,
        lookupArg (optimizeArgs exampleEnv (editTarget exampleEnv)) "baseUrl".toList]
      = pathToTempDir exampleEnv := by
  decide


end Orion
